import Mathlib

/-!
# Verification of package `gen` (jakebowkett/go-gen)

A shallow embedding of `gen.go` and proofs of properties of its functions.

Modelling conventions.

* A Go `string` is modelled by a Lean `String`, i.e. a sequence of Unicode
  code points (a Go string holding valid UTF-8).  The number of characters of
  a string is `String.length`; the Go expression `len(s)` (a byte count) is
  `String.utf8ByteSize`.
* A Go `error` is `Option String`: `none` is `nil`, `some msg` an error with
  message `msg`.
* A Go `int` / `int64` is an `Int`; the only arithmetic that can overflow is
  `seed++`, which wraps (`wrapInt64`).
* A run-time panic is the outcome `none` of an `Option`.  The functions that
  read the entropy source end in an `Outcome`: they return, panic, or the
  process is aborted inside `crypto/rand.Read`.
* The package level variable `seed` is passed explicitly: functions take the
  value before the call and return the value after it.  In these functions the
  statements of a call run without interruption; concurrent calls are
  modelled apart, as an interleaving of the statements around `seedMu`
  (`runSchedule`).
* The standard library generators (`math/rand`, `crypto/rand`) are
  parameters, bundled with the part of their documented contract the package
  relies on.  The package does not fix a Go version, so both documented
  behaviours of `crypto/rand.Read` on a failing reader are outcomes of the
  model: the error is returned (up to Go 1.23), or the process is aborted
  (since Go 1.24).
-/

namespace gen

/-! ## Go runtime and standard library -/

/-- Go `error`: `none` is `nil`. -/
abbrev error := Option String

/-- Go `errors.New`. -/
def errors_New (msg : String) : error := some msg

/-- Two's complement wrap-around of a 64 bit signed integer. -/
def wrapInt64 (x : Int) : Int := (x + 2 ^ 63) % 2 ^ 64 - 2 ^ 63

/-- Go `strings.Split(s, "")`: with an empty separator the string is
exploded into one string per code point. -/
def strings_Split (s : String) : List String := s.data.map String.singleton

/-- Go slice indexing `ss[i]`: panics (`none`) when the index is out of range. -/
def index (ss : List String) (i : Int) : Option String :=
  if i < 0 then none else ss[i.toNat]?

/-- Go `map[string]bool` as an association list; the newest binding of a key
shadows the older ones. -/
abbrev GoMap := List (String × Bool)

/-- Map read `m[k]`: a missing key gives the zero value `false`. -/
def GoMap.get (m : GoMap) (k : String) : Bool :=
  match m.lookup k with
  | some v => v
  | none => false

/-- Map write `m[k] = v`. -/
def GoMap.set (m : GoMap) (k : String) (v : Bool) : GoMap := (k, v) :: m

/-- The generator of `math/rand` as far as the package uses it:
`NewSource seed` builds the state of a fresh stream, `next r n` is the value
`Intn` draws for a positive bound `n` together with the advanced state.
`next_lt` is the documented range of `Intn`: a value in `[0, n)`. -/
structure Rand where
  Source : Type
  NewSource : Int → Source
  next : Source → Nat → Nat × Source
  next_lt : ∀ (r : Source) (n : Nat), 0 < n → (next r n).1 < n

/-- Go `(*rand.Rand).Intn`: panics when `n <= 0`. -/
def Rand.Intn (R : Rand) (r : R.Source) (n : Int) : Option (Int × R.Source) :=
  if n ≤ 0 then none
  else some (((R.next r n.toNat).1 : Int), (R.next r n.toNat).2)

/-- Go `byte`. -/
abbrev byte := Fin 256

/-- What a call of `crypto/rand.Read(b)` that returns leaves behind: the
contents of the buffer, the number of bytes read and the error. -/
structure ReadResult where
  bb : List byte
  n : Int
  err : error
  deriving DecidableEq

/-- How a call of `crypto/rand.Read(b)` ends.  It returns; or the process is
aborted inside the call: since Go 1.24 `Read` never returns an error and a
reader that fails ends the process with a fatal error, where up to Go 1.23
`Read` returned the error of the reader. -/
inductive ReadOutcome where
  | returns (res : ReadResult)
  | aborts
  deriving DecidableEq

/-- The entropy source behind `crypto/rand.Read`, with its documented
contract for a call that returns: the buffer keeps its size, and all of it
was read exactly when the error is `nil`. -/
structure EntropySource where
  Read : List byte → ReadOutcome
  Read_len : ∀ b res, Read b = ReadOutcome.returns res → res.bb.length = b.length
  Read_full : ∀ b res, Read b = ReadOutcome.returns res →
    (res.n = (b.length : Int) ↔ res.err = none)

/-- How a call of a function ends: it returns a value, it panics, or the
process is aborted by the runtime during the call. -/
inductive Outcome (α : Type) where
  | returns (a : α)
  | panics
  | aborts
  deriving DecidableEq

/-- The alphabet of `base64.URLEncoding`. -/
def encodeURL : String :=
  "ABCDEFGHIJKLMNOPQRSTUVWXYZabcdefghijklmnopqrstuvwxyz0123456789-_"

/-- The padding character `base64.StdPadding` of `base64.URLEncoding`. -/
def padChar : Char := '='

/-- Alphabet lookup `enc.encode[i]`. -/
def encodeAt (i : Nat) : Char := encodeURL.data.getD i '?'

/-- Go `(*Encoding).Encode` for `base64.URLEncoding`: three source bytes
give four characters, a remaining block of one or two bytes is padded. -/
def Encode : List byte → List Char
  | b0 :: b1 :: b2 :: rest =>
    let val := b0.val <<< 16 ||| b1.val <<< 8 ||| b2.val
    encodeAt (val >>> 18 &&& 0x3F) :: encodeAt (val >>> 12 &&& 0x3F) ::
      encodeAt (val >>> 6 &&& 0x3F) :: encodeAt (val &&& 0x3F) :: Encode rest
  | [b0, b1] =>
    let val := b0.val <<< 16 ||| b1.val <<< 8
    [encodeAt (val >>> 18 &&& 0x3F), encodeAt (val >>> 12 &&& 0x3F),
      encodeAt (val >>> 6 &&& 0x3F), padChar]
  | [b0] =>
    let val := b0.val <<< 16
    [encodeAt (val >>> 18 &&& 0x3F), encodeAt (val >>> 12 &&& 0x3F), padChar, padChar]
  | [] => []

/-- Go `base64.URLEncoding.EncodeToString`. -/
def EncodeToString (src : List byte) : String := String.mk (Encode src)

/-! ## The package -/

def setBase64 : String := "ABCDEFGHIJKLMNOPQRSTUVWXYZabcdefghijklmnopqrstuvwxyz0123456789_-"
def setAlphaNum : String := "ABCDEFGHIJKLMNOPQRSTUVWXYZabcdefghijklmnopqrstuvwxyz0123456789"
def setAlpha : String := "ABCDEFGHIJKLMNOPQRSTUVWXYZabcdefghijklmnopqrstuvwxyz"
def setNum : String := "0123456789"

/-- The loop of `uniqueSet` over the rest of `ss`, with the map `seen`. -/
def uniqueSet.loop : List String → GoMap → Bool
  | [], _ => true
  | s :: rest, seen =>
    if seen.get s then false
    else uniqueSet.loop rest (seen.set s true)

/-- `uniqueSet` of gen.go. -/
def uniqueSet (ss : List String) : Bool := uniqueSet.loop ss []

/-- What a call of a generator returns: the string, the error, and the value
of the package variable `seed` after the call. -/
structure Ret where
  s : String
  err : error
  seed : Int
  deriving DecidableEq, Repr

/-- The sampling loop of `FromCharSet`, `k` iterations still to run:
`s += set[r.Intn(len(set))]`. -/
def FromCharSet.loop (R : Rand) (set : List String) : Nat → R.Source → String → Option String
  | 0, _, s => some s
  | k + 1, r, s =>
    match R.Intn r (set.length : Int) with
    | none => none
    | some (i, r1) =>
      match index set i with
      | none => none
      | some c => FromCharSet.loop R set k r1 (s ++ c)

/-- `FromCharSet` of gen.go, called with the package variable at `seed`.
The loop `for i := 0; i < length; i++` runs `length` times. -/
def FromCharSet (R : Rand) (seed : Int) (length : Int) (charSet : String) : Option Ret :=
  if length < 0 then
    some ⟨"", errors_New "length is negative.", seed⟩
  else if charSet = "" then
    some ⟨"", errors_New "charSet is an empty string.", seed⟩
  else
    let set := strings_Split charSet
    if !uniqueSet set then
      some ⟨"", errors_New "duplicate characters in charSet.", seed⟩
    else if set.length < 2 then
      some ⟨"", errors_New "charSet is less than two characters.", seed⟩
    else
      let seed1 := wrapInt64 (seed + 1)
      let r := R.NewSource seed1
      match FromCharSet.loop R set length.toNat r "" with
      | none => none
      | some s => some ⟨s, none, seed1⟩

/-- `Alpha` of gen.go. -/
def Alpha (R : Rand) (seed : Int) (length : Int) : Option Ret :=
  FromCharSet R seed length setAlpha

/-- `AlphaNum` of gen.go. -/
def AlphaNum (R : Rand) (seed : Int) (length : Int) : Option Ret :=
  FromCharSet R seed length setAlphaNum

/-- `Num` of gen.go. -/
def Num (R : Rand) (seed : Int) (length : Int) : Option Ret :=
  FromCharSet R seed length setNum

/-- `Base64` of gen.go. -/
def Base64 (R : Rand) (seed : Int) (length : Int) : Option Ret :=
  FromCharSet R seed length setBase64

/-- `cryptoGen` of gen.go; `make([]byte, n)` panics for a negative `n`, and
the call ends with the process when `crypto.Read(bb)` aborts it. -/
def cryptoGen (src : EntropySource) (n : Int) : Outcome (String × error) :=
  if n < 0 then Outcome.panics
  else
    let bb : List byte := List.replicate n.toNat 0
    match src.Read bb with
    | ReadOutcome.aborts => Outcome.aborts
    | ReadOutcome.returns res =>
      if res.err ≠ none then Outcome.returns ("", res.err)
      else Outcome.returns (EncodeToString res.bb, none)

/-- `Crypto128` of gen.go. -/
def Crypto128 (src : EntropySource) : Outcome (String × error) := cryptoGen src 128

/-- `Crypto256` of gen.go. -/
def Crypto256 (src : EntropySource) : Outcome (String × error) := cryptoGen src 256

/-! ## Concrete generators used to evaluate the functions -/

/-- A linear congruential stream: a generator meeting the contract of `Rand`. -/
def lcg : Rand where
  Source := Nat
  NewSource := fun seed => (seed % 2 ^ 64).toNat
  next := fun r n => ((r / 65536) % n, (r * 6364136223846793005 + 1442695040888963407) % 2 ^ 64)
  next_lt := fun _ _ h => Nat.mod_lt _ h

/-- A buffer of `k` bytes filled with 7, 8, 9, ..., all of it read. -/
def countingResult (k : Nat) : ReadResult :=
  ⟨(List.range k).map (fun i => Fin.ofNat (i + 7)), k, none⟩

/-- An entropy source that fills the buffer with the bytes 7, 8, 9, ... -/
def countingSource : EntropySource where
  Read := fun b => ReadOutcome.returns (countingResult b.length)
  Read_len := fun b res h => by
    cases h
    simp [countingResult]
  Read_full := fun b res h => by
    cases h
    simp [countingResult]

/-- A reader that reads nothing and fails on every buffer that is not empty,
behind a `Read` that returns the error of the reader (Go 1.23 and before). -/
def failingSource : EntropySource where
  Read := fun b =>
    ReadOutcome.returns ⟨b, 0, if b.length = 0 then none else some "unexpected EOF"⟩
  Read_len := fun b res h => by
    cases h
    rfl
  Read_full := fun b res h => by
    cases h
    by_cases h0 : b.length = 0
    · simp [h0]
    · simp only [h0, if_false]
      constructor
      · intro h1
        omega
      · intro h1
        cases h1

/-- The same failing reader behind a `Read` that never returns an error and
aborts the process instead (Go 1.24 and later). -/
def abortingSource : EntropySource where
  Read := fun b =>
    if b.length = 0 then ReadOutcome.returns ⟨b, 0, none⟩ else ReadOutcome.aborts
  Read_len := fun b res h => by
    by_cases h0 : b.length = 0
    · simp only [h0, if_true] at h
      cases h
      rfl
    · simp only [h0, if_false] at h
      cases h
  Read_full := fun b res h => by
    by_cases h0 : b.length = 0
    · simp only [h0, if_true] at h
      cases h
      simp [h0]
    · simp only [h0, if_false] at h
      cases h

/-! ## Character classes of the regular expressions of gen_test.go -/

/-- The class `[A-Za-z]`. -/
def alphaChar (c : Char) : Prop := ('A' ≤ c ∧ c ≤ 'Z') ∨ ('a' ≤ c ∧ c ≤ 'z')

/-- The class `[0-9]`. -/
def digitChar (c : Char) : Prop := '0' ≤ c ∧ c ≤ '9'

/-- The class `[A-Za-z0-9]`. -/
def alphaNumChar (c : Char) : Prop := alphaChar c ∨ digitChar c

/-- The class `[A-Za-z0-9_-]`. -/
def urlChar (c : Char) : Prop := alphaNumChar c ∨ c = '_' ∨ c = '-'

/-- The class `[A-Za-z0-9_=-]`. -/
def tokenChar (c : Char) : Prop := urlChar c ∨ c = '='

instance : DecidablePred alphaChar := fun c => by unfold alphaChar; infer_instance
instance : DecidablePred digitChar := fun c => by unfold digitChar; infer_instance
instance : DecidablePred alphaNumChar := fun c => by unfold alphaNumChar; infer_instance
instance : DecidablePred urlChar := fun c => by unfold urlChar; infer_instance
instance : DecidablePred tokenChar := fun c => by unfold tokenChar; infer_instance

/-! ## Sequences of calls and the stream of draws -/

/-- The first `k` values that `Intn(n)` draws, one after the other, from the
stream in state `r`; the list ends where `Intn` panics. -/
def draws (R : Rand) (n : Int) : Nat → R.Source → List Int
  | 0, _ => []
  | k + 1, r =>
    match R.Intn r n with
    | none => []
    | some (d, r1) => d :: draws R n k r1

/-- Calls of `FromCharSet` made one after the other, each given as its
arguments `(length, charSet)`, starting with the package variable at `seed`:
the list of the seeds from which the calls that generate a string build
their stream, in the order of the calls. -/
def streamSeeds (R : Rand) : Int → List (Int × String) → List Int
  | _, [] => []
  | seed, (length, charSet) :: rest =>
    match FromCharSet R seed length charSet with
    | none => []
    | some r =>
      if r.err = none then r.seed :: streamSeeds R r.seed rest
      else streamSeeds R r.seed rest

/-- A code point of the block Combining Diacritical Marks, U+0300 to U+036F. -/
def combining (c : Char) : Prop := 0x300 ≤ c.toNat ∧ c.toNat ≤ 0x36F

instance : DecidablePred combining := fun c => by unfold combining; infer_instance

/-! ## Concurrent calls: interleaving of the statements of gen.go:147-150 -/

/-- The program points of a call of `FromCharSet` that has passed validation:
before `seedMu.Lock()`, before `seed++`, before `seedMu.Unlock()`, before
`rand.NewSource(seed)`, and at the sampling loop. -/
inductive Pc where
  | atLock
  | atIncr
  | atUnlock
  | atNewSource
  | atLoop
  deriving DecidableEq, Repr

/-- The package variables shared by the calls: `seed`, and whether `seedMu`
is held. -/
structure Shared where
  seed : Int
  locked : Bool
  deriving DecidableEq, Repr

/-- A running call: its program point and the seed it has passed to
`rand.NewSource`, once it has. -/
structure Call where
  pc : Pc
  streamSeed : Option Int
  deriving DecidableEq, Repr

/-- One statement of a call, executed atomically; `none` when the call cannot
move: it waits for `seedMu`, or it has reached the sampling loop. -/
def Call.step (g : Shared) (c : Call) : Option (Shared × Call) :=
  match c.pc with
  | Pc.atLock => if g.locked then none else some (⟨g.seed, true⟩, ⟨Pc.atIncr, c.streamSeed⟩)
  | Pc.atIncr => some (⟨wrapInt64 (g.seed + 1), g.locked⟩, ⟨Pc.atUnlock, c.streamSeed⟩)
  | Pc.atUnlock => some (⟨g.seed, false⟩, ⟨Pc.atNewSource, c.streamSeed⟩)
  | Pc.atNewSource => some (g, ⟨Pc.atLoop, some g.seed⟩)
  | Pc.atLoop => none

/-- An interleaved execution: the schedule names, step by step, the call that
executes its next statement. -/
def runSchedule : List Nat → Shared × List Call → Option (Shared × List Call)
  | [], st => some st
  | i :: rest, (g, cs) =>
    match cs[i]? with
    | none => none
    | some c =>
      match c.step g with
      | none => none
      | some (g1, c1) => runSchedule rest (g1, cs.set i c1)

/-! ## Lemmas on the runtime model -/

theorem GoMap.get_nil (k : String) : GoMap.get [] k = false := rfl

theorem GoMap.get_set (m : GoMap) (s k : String) (v : Bool) :
    (m.set s v).get k = if k = s then v else m.get k := by
  unfold GoMap.get GoMap.set
  by_cases h : k = s
  · subst h
    simp [List.lookup_cons]
  · have hb : (k == s) = false := by simpa using h
    simp [List.lookup_cons, hb, h]

/-- The loop of `uniqueSet` accepts exactly the duplicate-free lists none of
whose elements is already marked in `seen`. -/
theorem uniqueSet.loop_eq_true (ss : List String) (seen : GoMap) :
    uniqueSet.loop ss seen = true ↔ ss.Nodup ∧ ∀ s ∈ ss, seen.get s = false := by
  induction ss generalizing seen with
  | nil => simp [uniqueSet.loop]
  | cons a rest ih =>
    unfold uniqueSet.loop
    by_cases ha : seen.get a = true
    · simp [ha]
    · have ha1 : seen.get a = false := by simpa using ha
      simp only [ha1, Bool.false_eq_true, if_false, ih, List.nodup_cons, List.mem_cons,
        forall_eq_or_imp, true_and]
      constructor
      · rintro ⟨hnd, hall⟩
        refine ⟨⟨?_, hnd⟩, ?_⟩
        · intro hmem
          have := hall a hmem
          simp [GoMap.get_set] at this
        · intro s hs
          have := hall s hs
          rw [GoMap.get_set] at this
          by_cases hsa : s = a
          · simp [hsa] at this
          · simpa [hsa] using this
      · rintro ⟨⟨hna, hnd⟩, hall⟩
        refine ⟨hnd, ?_⟩
        intro s hs
        rw [GoMap.get_set]
        have hsa : s ≠ a := fun h => hna (h ▸ hs)
        simpa [hsa] using hall s hs

theorem uniqueSet_eq_true (ss : List String) : uniqueSet ss = true ↔ ss.Nodup := by
  unfold uniqueSet
  rw [uniqueSet.loop_eq_true]
  simp [GoMap.get_nil]

theorem singleton_data (c : Char) : (String.singleton c).data = [c] := rfl

theorem singleton_injective : Function.Injective String.singleton := by
  intro a b h
  have := congrArg String.data h
  simpa [singleton_data] using this

theorem strings_Split_length (s : String) : (strings_Split s).length = s.length := by
  unfold strings_Split
  rw [List.length_map]
  rfl

theorem strings_Split_nodup (s : String) : (strings_Split s).Nodup ↔ s.data.Nodup := by
  unfold strings_Split
  exact List.nodup_map_iff singleton_injective

theorem uniqueSet_Split (s : String) : uniqueSet (strings_Split s) = true ↔ s.data.Nodup := by
  rw [uniqueSet_eq_true, strings_Split_nodup]

theorem mem_strings_Split (s p : String) :
    p ∈ strings_Split s ↔ ∃ c ∈ s.data, p = String.singleton c := by
  unfold strings_Split
  simp only [List.mem_map]
  constructor
  · rintro ⟨c, hc, rfl⟩
    exact ⟨c, hc, rfl⟩
  · rintro ⟨c, hc, rfl⟩
    exact ⟨c, hc, rfl⟩

theorem eq_empty_iff_length (s : String) : s = "" ↔ s.length = 0 := by
  constructor
  · rintro rfl
    rfl
  · intro h
    cases s with
    | mk d =>
      have : d = [] := List.length_eq_zero.mp h
      subst this
      rfl

/-! ## The sampling loop -/

/-- With a non-empty set, `Intn(len(set))` does not panic and the value it
draws indexes an element of the set. -/
theorem Intn_index (R : Rand) (set : List String) (hpos : 0 < set.length) (r : R.Source) :
    ∃ p ∈ set, R.Intn r (set.length : Int)
        = some (((R.next r set.length).1 : Int), (R.next r set.length).2) ∧
      index set ((R.next r set.length).1 : Int) = some p := by
  have hlt := R.next_lt r set.length hpos
  refine ⟨set.get ⟨(R.next r set.length).1, hlt⟩, List.get_mem _ _ _, ?_, ?_⟩
  · unfold Rand.Intn
    have h0 : ¬ ((set.length : Int) ≤ 0) := by omega
    simp only [h0, if_false, Int.toNat_ofNat]
  · unfold index
    have h0 : ¬ (((R.next r set.length).1 : Int) < 0) := by omega
    simp only [h0, if_false, Int.toNat_ofNat]
    exact List.getElem?_eq_getElem hlt

/-- The sampling loop over a non-empty set runs to its end: it appends `k`
elements of the set, one per iteration, to the string built so far. -/
theorem FromCharSet.loop_spec (R : Rand) (set : List String) (hpos : 0 < set.length)
    (k : Nat) (r : R.Source) (s : String) :
    ∃ picks : List String, picks.length = k ∧ (∀ p ∈ picks, p ∈ set) ∧
      FromCharSet.loop R set k r s = some (picks.foldl (fun acc p => acc ++ p) s) := by
  induction k generalizing r s with
  | zero => exact ⟨[], rfl, by simp, rfl⟩
  | succ k ih =>
    obtain ⟨p, hp, hI, hidx⟩ := Intn_index R set hpos r
    obtain ⟨picks, hlen, hmem, hloop⟩ := ih (R.next r set.length).2 (s ++ p)
    refine ⟨p :: picks, by simp [hlen], ?_, ?_⟩
    · intro q hq
      rcases List.mem_cons.mp hq with rfl | hq
      · exact hp
      · exact hmem q hq
    · unfold FromCharSet.loop
      simp only [hI, hidx, hloop, List.foldl_cons]

theorem foldl_append_data (picks : List String) (s : String) :
    (picks.foldl (fun acc p => acc ++ p) s).data = s.data ++ (picks.map String.data).flatten := by
  induction picks generalizing s with
  | nil => simp
  | cons p rest ih => simp [ih, String.data_append, List.append_assoc]

/-- Appending single-character strings: one character per string, each the
character of one of the strings. -/
theorem join_singletons (chars : List Char) (picks : List String)
    (h : ∀ p ∈ picks, ∃ c ∈ chars, p = String.singleton c) :
    ∃ cs : List Char, (picks.map String.data).flatten = cs ∧ cs.length = picks.length ∧
      ∀ c ∈ cs, c ∈ chars := by
  induction picks with
  | nil => exact ⟨[], rfl, rfl, by simp⟩
  | cons p rest ih =>
    obtain ⟨cs, hcs, hlen, hmem⟩ := ih (fun q hq => h q (List.mem_cons_of_mem _ hq))
    obtain ⟨c, hc, rfl⟩ := h p (List.mem_cons_self _ _)
    refine ⟨c :: cs, ?_, by simp [hlen], ?_⟩
    · simp [hcs, singleton_data]
    · intro d hd
      rcases List.mem_cons.mp hd with rfl | hd
      · exact hc
      · exact hmem d hd

/-- The sampling loop of `FromCharSet` on the split of a non-empty charSet:
it returns the string built so far followed by `k` characters of charSet. -/
theorem FromCharSet.loop_Split (R : Rand) (charSet : String) (hpos : 0 < charSet.length)
    (k : Nat) (r : R.Source) (s : String) :
    ∃ cs : List Char, cs.length = k ∧ (∀ c ∈ cs, c ∈ charSet.data) ∧
      FromCharSet.loop R (strings_Split charSet) k r s = some (String.mk (s.data ++ cs)) := by
  have hpos1 : 0 < (strings_Split charSet).length := by
    rw [strings_Split_length]
    exact hpos
  obtain ⟨picks, hlen, hmem, hloop⟩ := FromCharSet.loop_spec R _ hpos1 k r s
  obtain ⟨cs, hcs, hl, hin⟩ := join_singletons charSet.data picks
    (fun p hp => (mem_strings_Split charSet p).mp (hmem p hp))
  refine ⟨cs, by rw [hl, hlen], hin, ?_⟩
  rw [hloop]
  congr 1
  apply String.ext
  rw [foldl_append_data, hcs]

/-! ## The five outcomes of `FromCharSet` -/

theorem FromCharSet_neg (R : Rand) (seed length : Int) (charSet : String) (h : length < 0) :
    FromCharSet R seed length charSet = some ⟨"", some "length is negative.", seed⟩ := by
  unfold FromCharSet
  simp only [h, if_true, errors_New]

theorem FromCharSet_empty (R : Rand) (seed length : Int) (h : 0 ≤ length) :
    FromCharSet R seed length "" = some ⟨"", some "charSet is an empty string.", seed⟩ := by
  unfold FromCharSet
  have h0 : ¬ length < 0 := by omega
  simp only [h0, if_false, if_true, errors_New]

theorem FromCharSet_dup (R : Rand) (seed length : Int) (charSet : String) (h : 0 ≤ length)
    (hne : charSet ≠ "") (hd : ¬ charSet.data.Nodup) :
    FromCharSet R seed length charSet
      = some ⟨"", some "duplicate characters in charSet.", seed⟩ := by
  unfold FromCharSet
  have h0 : ¬ length < 0 := by omega
  have hu : uniqueSet (strings_Split charSet) = false := by
    rw [← Bool.not_eq_true, uniqueSet_Split]
    exact hd
  simp only [h0, hne, if_false, hu, Bool.not_false, if_true, errors_New]

theorem FromCharSet_small (R : Rand) (seed length : Int) (charSet : String) (h : 0 ≤ length)
    (hne : charSet ≠ "") (hd : charSet.data.Nodup) (h2 : charSet.length < 2) :
    FromCharSet R seed length charSet
      = some ⟨"", some "charSet is less than two characters.", seed⟩ := by
  unfold FromCharSet
  have h0 : ¬ length < 0 := by omega
  have hu : uniqueSet (strings_Split charSet) = true := (uniqueSet_Split charSet).mpr hd
  simp only [h0, hne, if_false, hu, Bool.not_true, Bool.false_eq_true, strings_Split_length,
    h2, if_true, errors_New]

/-- On a valid input `FromCharSet` returns `length` characters of charSet with
a nil error, and leaves the seed incremented. -/
theorem FromCharSet_valid (R : Rand) (seed length : Int) (charSet : String) (h : 0 ≤ length)
    (hd : charSet.data.Nodup) (h2 : 2 ≤ charSet.length) :
    ∃ cs : List Char, cs.length = length.toNat ∧ (∀ c ∈ cs, c ∈ charSet.data) ∧
      FromCharSet R seed length charSet = some ⟨String.mk cs, none, wrapInt64 (seed + 1)⟩ := by
  have h0 : ¬ length < 0 := by omega
  have hne : charSet ≠ "" := by
    intro he
    rw [he] at h2
    exact absurd h2 (by decide)
  have hu : uniqueSet (strings_Split charSet) = true := (uniqueSet_Split charSet).mpr hd
  have h2n : ¬ charSet.length < 2 := by omega
  obtain ⟨cs, hlen, hmem, hloop⟩ := FromCharSet.loop_Split R charSet (by omega) length.toNat
    (R.NewSource (wrapInt64 (seed + 1))) ""
  refine ⟨cs, hlen, hmem, ?_⟩
  unfold FromCharSet
  simp only [h0, hne, if_false, hu, Bool.not_true, Bool.false_eq_true, strings_Split_length,
    h2n, hloop]
  rfl

/-- The five cases of `FromCharSet`, in the order the checks are made. -/
theorem FromCharSet_cases (R : Rand) (seed length : Int) (charSet : String) :
    (length < 0 ∧
      FromCharSet R seed length charSet = some ⟨"", some "length is negative.", seed⟩) ∨
    (0 ≤ length ∧ charSet = "" ∧
      FromCharSet R seed length charSet
        = some ⟨"", some "charSet is an empty string.", seed⟩) ∨
    (0 ≤ length ∧ charSet ≠ "" ∧ ¬ charSet.data.Nodup ∧
      FromCharSet R seed length charSet
        = some ⟨"", some "duplicate characters in charSet.", seed⟩) ∨
    (0 ≤ length ∧ charSet ≠ "" ∧ charSet.data.Nodup ∧ charSet.length < 2 ∧
      FromCharSet R seed length charSet
        = some ⟨"", some "charSet is less than two characters.", seed⟩) ∨
    (0 ≤ length ∧ charSet ≠ "" ∧ charSet.data.Nodup ∧ 2 ≤ charSet.length ∧
      ∃ cs : List Char, cs.length = length.toNat ∧ (∀ c ∈ cs, c ∈ charSet.data) ∧
        FromCharSet R seed length charSet
          = some ⟨String.mk cs, none, wrapInt64 (seed + 1)⟩) := by
  by_cases h0 : length < 0
  · exact Or.inl ⟨h0, FromCharSet_neg R seed length charSet h0⟩
  have h0p : 0 ≤ length := by omega
  by_cases hne : charSet = ""
  · subst hne
    exact Or.inr (Or.inl ⟨h0p, rfl, FromCharSet_empty R seed length h0p⟩)
  by_cases hd : charSet.data.Nodup
  · by_cases h2 : charSet.length < 2
    · exact Or.inr (Or.inr (Or.inr (Or.inl
        ⟨h0p, hne, hd, h2, FromCharSet_small R seed length charSet h0p hne hd h2⟩)))
    · exact Or.inr (Or.inr (Or.inr (Or.inr
        ⟨h0p, hne, hd, by omega, FromCharSet_valid R seed length charSet h0p hd (by omega)⟩)))
  · exact Or.inr (Or.inr (Or.inl
      ⟨h0p, hne, hd, FromCharSet_dup R seed length charSet h0p hne hd⟩))

theorem utf8Len_const (b : Nat) (cs : List Char) (h : ∀ c ∈ cs, c.utf8Size = b) :
    String.utf8Len cs = b * cs.length := by
  induction cs with
  | nil => simp
  | cons c rest ih =>
    rw [String.utf8Len_cons, ih (fun d hd => h d (List.mem_cons_of_mem _ hd)),
      h c (List.mem_cons_self _ _), List.length_cons]
    ring

/-- A generated string: `FromCharSet` returns, with an error if and only if
`length` is negative when charSet is valid, and with `length` characters of
charSet otherwise. -/
theorem FromCharSet_builtin (R : Rand) (seed n : Int) (charSet : String) (P : Char → Prop)
    (hd : charSet.data.Nodup) (h2 : 2 ≤ charSet.length) (hP : ∀ c ∈ charSet.data, P c) :
    ∃ r, FromCharSet R seed n charSet = some r ∧ (r.err ≠ none ↔ n < 0) ∧
      (0 ≤ n → r.err = none ∧ (r.s.length : Int) = n ∧ ∀ c ∈ r.s.data, P c) := by
  by_cases h0 : n < 0
  · refine ⟨_, FromCharSet_neg R seed n charSet h0, ?_, ?_⟩
    · simp [h0]
    · intro h
      omega
  · have h0p : 0 ≤ n := by omega
    obtain ⟨cs, hlen, hmem, hF⟩ := FromCharSet_valid R seed n charSet h0p hd h2
    refine ⟨_, hF, ?_, ?_⟩
    · simp [h0]
    · intro _
      refine ⟨rfl, ?_, fun c hc => hP c (hmem c hc)⟩
      show ((cs.length : Nat) : Int) = n
      rw [hlen]
      exact Int.toNat_of_nonneg h0p

/-- Whenever `FromCharSet` returns an error the string is empty, and a
negative length is such a case. -/
theorem FromCharSet_err_empty (R : Rand) (seed length : Int) (charSet : String) :
    ∃ r, FromCharSet R seed length charSet = some r ∧ (r.err ≠ none → r.s = "") ∧
      (length < 0 → r.err ≠ none ∧ r.s = "") := by
  rcases FromCharSet_cases R seed length charSet with
    ⟨h, hF⟩ | ⟨h, _, hF⟩ | ⟨h, _, _, hF⟩ | ⟨h, _, _, _, hF⟩ | ⟨h, _, _, _, cs, _, _, hF⟩
  · exact ⟨_, hF, fun _ => rfl, fun _ => ⟨by simp, rfl⟩⟩
  · exact ⟨_, hF, fun _ => rfl, fun hn => by omega⟩
  · exact ⟨_, hF, fun _ => rfl, fun hn => by omega⟩
  · exact ⟨_, hF, fun _ => rfl, fun hn => by omega⟩
  · exact ⟨_, hF, fun hne => absurd rfl hne, fun hn => by omega⟩

/-! ## The base64 encoder and `cryptoGen` -/

theorem ceil_third (n : Nat) : ⌈(n : ℚ) / 3⌉₊ = (n + 2) / 3 := by
  apply le_antisymm
  · rw [Nat.ceil_le, div_le_iff₀ (by norm_num)]
    have h : n ≤ (n + 2) / 3 * 3 := by omega
    exact_mod_cast h
  · rcases Nat.eq_zero_or_pos ((n + 2) / 3) with h0 | hpos
    · rw [h0]
      exact Nat.zero_le _
    · have h1 : (n + 2) / 3 - 1 < ⌈(n : ℚ) / 3⌉₊ := by
        rw [Nat.lt_ceil, lt_div_iff₀ (by norm_num)]
        have h : ((n + 2) / 3 - 1) * 3 < n := by omega
        exact_mod_cast h
      omega

/-- The length of the padded encoding, `EncodedLen` of encoding/base64. -/
theorem Encode_length : ∀ bb : List byte, (Encode bb).length = (bb.length + 2) / 3 * 4
  | _ :: _ :: _ :: rest => by
    have ih := Encode_length rest
    simp only [Encode, List.length_cons, ih]
    omega
  | [_, _] => by simp [Encode]
  | [_] => by simp [Encode]
  | [] => by simp [Encode]

theorem urlChar_encodeAt_lt : ∀ i < 64, urlChar (encodeAt i) := by
  decide

/-- A six bit index selects a character of the URL alphabet. -/
theorem urlChar_encodeAt (x : Nat) : urlChar (encodeAt (x &&& 0x3F)) := by
  apply urlChar_encodeAt_lt
  have h := Nat.and_pow_two_sub_one_eq_mod x 6
  have h63 : (0x3F : Nat) = 2 ^ 6 - 1 := by norm_num
  rw [h63, h]
  exact Nat.mod_lt _ (by norm_num)

theorem urlChar_not_special (c : Char) (h : urlChar c) : c ≠ '=' ∧ c ≠ '+' ∧ c ≠ '/' := by
  refine ⟨?_, ?_, ?_⟩ <;>
  · rintro rfl
    revert h
    decide

/-- The encoding is a body of URL alphabet characters followed by the
padding: no `=` for a length divisible by 3, two for a remainder of 1 and one
for a remainder of 2. -/
theorem Encode_shape : ∀ bb : List byte, ∃ body : List Char,
    Encode bb = body ++ List.replicate ((3 - bb.length % 3) % 3) padChar ∧
      ∀ c ∈ body, urlChar c
  | b0 :: b1 :: b2 :: rest => by
    obtain ⟨body, hE, hb⟩ := Encode_shape rest
    refine ⟨encodeAt ((b0.val <<< 16 ||| b1.val <<< 8 ||| b2.val) >>> 18 &&& 0x3F) ::
      encodeAt ((b0.val <<< 16 ||| b1.val <<< 8 ||| b2.val) >>> 12 &&& 0x3F) ::
      encodeAt ((b0.val <<< 16 ||| b1.val <<< 8 ||| b2.val) >>> 6 &&& 0x3F) ::
      encodeAt ((b0.val <<< 16 ||| b1.val <<< 8 ||| b2.val) &&& 0x3F) :: body, ?_, ?_⟩
    · have hlen : (b0 :: b1 :: b2 :: rest).length % 3 = rest.length % 3 := by
        simp only [List.length_cons]
        omega
      rw [hlen]
      simp only [Encode, hE, List.cons_append]
    · intro c hc
      simp only [List.mem_cons] at hc
      rcases hc with rfl | rfl | rfl | rfl | hc
      · exact urlChar_encodeAt _
      · exact urlChar_encodeAt _
      · exact urlChar_encodeAt _
      · exact urlChar_encodeAt _
      · exact hb c hc
  | [b0, b1] => by
    refine ⟨[encodeAt ((b0.val <<< 16 ||| b1.val <<< 8) >>> 18 &&& 0x3F),
      encodeAt ((b0.val <<< 16 ||| b1.val <<< 8) >>> 12 &&& 0x3F),
      encodeAt ((b0.val <<< 16 ||| b1.val <<< 8) >>> 6 &&& 0x3F)], rfl, ?_⟩
    intro c hc
    simp only [List.mem_cons, List.mem_singleton, List.not_mem_nil, or_false] at hc
    rcases hc with rfl | rfl | rfl
    · exact urlChar_encodeAt _
    · exact urlChar_encodeAt _
    · exact urlChar_encodeAt _
  | [b0] => by
    refine ⟨[encodeAt ((b0.val <<< 16) >>> 18 &&& 0x3F),
      encodeAt ((b0.val <<< 16) >>> 12 &&& 0x3F)], rfl, ?_⟩
    intro c hc
    simp only [List.mem_cons, List.mem_singleton, List.not_mem_nil, or_false] at hc
    rcases hc with rfl | rfl
    · exact urlChar_encodeAt _
    · exact urlChar_encodeAt _
  | [] => ⟨[], rfl, fun _ hc => by cases hc⟩

/-- When the read succeeds `cryptoGen` returns the encoding of the `n` bytes
of the buffer with a nil error. -/
theorem cryptoGen_ok (src : EntropySource) (n : Int) (hn : 0 ≤ n) (res : ReadResult)
    (hread : src.Read (List.replicate n.toNat 0) = ReadOutcome.returns res)
    (hok : res.err = none) :
    res.bb.length = n.toNat ∧
      cryptoGen src n = Outcome.returns (EncodeToString res.bb, none) := by
  constructor
  · rw [src.Read_len _ res hread, List.length_replicate]
  · unfold cryptoGen
    have h0 : ¬ n < 0 := by omega
    simp only [h0, if_false, hread, hok, ne_eq, not_true_eq_false]

/-- When `Read` returns an error `cryptoGen` returns that error and the empty
string. -/
theorem cryptoGen_fail (src : EntropySource) (n : Int) (hn : 0 ≤ n) (res : ReadResult)
    (hread : src.Read (List.replicate n.toNat 0) = ReadOutcome.returns res)
    (herr : res.err ≠ none) :
    cryptoGen src n = Outcome.returns ("", res.err) := by
  unfold cryptoGen
  have h0 : ¬ n < 0 := by omega
  simp only [h0, if_false, hread, herr, ne_eq, not_false_eq_true, if_true]

/-- When `Read` aborts the process `cryptoGen` does not return. -/
theorem cryptoGen_aborts (src : EntropySource) (n : Int) (hn : 0 ≤ n)
    (hread : src.Read (List.replicate n.toNat 0) = ReadOutcome.aborts) :
    cryptoGen src n = Outcome.aborts := by
  unfold cryptoGen
  have h0 : ¬ n < 0 := by omega
  simp only [h0, if_false, hread]

/-- What holds of the error path whenever `Read` returns: a read that fails
or falls short comes with an error, which `cryptoGen(n)` returns unchanged
with the empty string; a read without error gives a nil error. -/
theorem cryptoGen_when_Read_returns (src : EntropySource) (n : Int) (hn : 0 ≤ n)
    (res : ReadResult)
    (hread : src.Read (List.replicate n.toNat 0) = ReadOutcome.returns res) :
    ((res.err ≠ none ∨ res.n ≠ n) →
      res.err ≠ none ∧ cryptoGen src n = Outcome.returns ("", res.err)) ∧
    (res.err = none → ∃ s, cryptoGen src n = Outcome.returns (s, none)) := by
  constructor
  · intro h
    have herr : res.err ≠ none := by
      rcases h with h | h
      · exact h
      · intro hnone
        have hfull := (src.Read_full _ res hread).mpr hnone
        rw [List.length_replicate, Int.toNat_of_nonneg hn] at hfull
        exact h hfull
    exact ⟨herr, cryptoGen_fail src n hn res hread herr⟩
  · intro hok
    exact ⟨_, (cryptoGen_ok src n hn res hread hok).2⟩

/-- A successful `cryptoGen(n)` returns a token of `(n + 2) / 3 * 4`
characters: a body of URL alphabet characters followed by the padding. -/
theorem cryptoGen_token (src : EntropySource) (n : Int) (hn : 0 ≤ n) (res : ReadResult)
    (hread : src.Read (List.replicate n.toNat 0) = ReadOutcome.returns res)
    (hok : res.err = none) :
    ∃ body : List Char,
      cryptoGen src n
        = Outcome.returns
            (String.mk (body ++ List.replicate ((3 - n.toNat % 3) % 3) padChar), none) ∧
      body.length + (3 - n.toNat % 3) % 3 = (n.toNat + 2) / 3 * 4 ∧
      ∀ c ∈ body, urlChar c := by
  obtain ⟨hlen, hgen⟩ := cryptoGen_ok src n hn res hread hok
  obtain ⟨body, hE, hb⟩ := Encode_shape res.bb
  have hL := Encode_length res.bb
  rw [hlen] at hE hL
  refine ⟨body, ?_, ?_, hb⟩
  · rw [hgen, EncodeToString, hE]
  · rw [hE, List.length_append, List.length_replicate] at hL
    exact hL

/-! ## Properties of `FromCharSet` and of its wrappers -/

/-- C1: for every length >= 0 and every charSet of at least two characters,
all distinct, `FromCharSet` returns a nil error and a string of exactly
`length` characters, counted as code points and not as bytes: when every
character of charSet takes `b` bytes the string takes `b * length` bytes, so
`FromCharSet(8, "世界地球風火災水稲妻太陽")` has 8 characters and 24 bytes.
Length 0 gives the empty string with a nil error. -/
theorem FromCharSet_returns_length_characters (R : Rand) (seed length : Int)
    (charSet : String) (hlen : 0 ≤ length) (h2 : 2 ≤ charSet.length)
    (hd : charSet.data.Nodup) :
    (∃ (s : String) (seed1 : Int),
      FromCharSet R seed length charSet = some ⟨s, none, seed1⟩ ∧
      (s.length : Int) = length ∧
      (∀ b : Nat, (∀ c ∈ charSet.data, c.utf8Size = b) → s.utf8ByteSize = b * s.length) ∧
      (length = 0 → s = "")) ∧
    (∃ (s : String) (seed1 : Int),
      FromCharSet R seed 8 "世界地球風火災水稲妻太陽" = some ⟨s, none, seed1⟩ ∧
      s.length = 8 ∧ s.utf8ByteSize = 24) := by
  constructor
  · obtain ⟨cs, hcs, hmem, hF⟩ := FromCharSet_valid R seed length charSet hlen hd h2
    refine ⟨String.mk cs, _, hF, ?_, ?_, ?_⟩
    · show ((cs.length : Nat) : Int) = length
      rw [hcs]
      exact Int.toNat_of_nonneg hlen
    · intro b hb
      exact utf8Len_const b cs (fun c hc => hb c (hmem c hc))
    · intro h0
      subst h0
      have : cs = [] := List.length_eq_zero.mp hcs
      subst this
      rfl
  · obtain ⟨cs, hcs, hmem, hF⟩ := FromCharSet_valid R seed 8 "世界地球風火災水稲妻太陽"
      (by decide) (by decide) (by decide)
    refine ⟨String.mk cs, _, hF, hcs, ?_⟩
    have hb : ∀ c ∈ "世界地球風火災水稲妻太陽".data, c.utf8Size = 3 := by decide
    have := utf8Len_const 3 cs (fun c hc => hb c (hmem c hc))
    rw [hcs] at this
    exact this

theorem FromCharSet_returns_length_characters_witness :
    (0 : Int) ≤ 5 ∧ 2 ≤ "😀😁😂🤣😄😅".length ∧ "😀😁😂🤣😄😅".data.Nodup ∧
    ((∃ (s : String) (seed1 : Int),
      FromCharSet lcg 41 5 "😀😁😂🤣😄😅" = some ⟨s, none, seed1⟩ ∧
      (s.length : Int) = 5 ∧
      (∀ b : Nat, (∀ c ∈ "😀😁😂🤣😄😅".data, c.utf8Size = b) → s.utf8ByteSize = b * s.length) ∧
      ((5 : Int) = 0 → s = "")) ∧
    (∃ (s : String) (seed1 : Int),
      FromCharSet lcg 41 8 "世界地球風火災水稲妻太陽" = some ⟨s, none, seed1⟩ ∧
      s.length = 8 ∧ s.utf8ByteSize = 24)) :=
  ⟨by decide, by decide, by decide,
    FromCharSet_returns_length_characters lcg 41 5 "😀😁😂🤣😄😅"
      (by decide) (by decide) (by decide)⟩

/-- C2: for every length and every charSet, `FromCharSet` returns, and every
character of the string it returns occurs in charSet (the `charsInSet` check
of the test), the calls that return an error included. -/
theorem FromCharSet_characters_in_charSet (R : Rand) (seed length : Int) (charSet : String) :
    ∃ r, FromCharSet R seed length charSet = some r ∧ ∀ c ∈ r.s.data, c ∈ charSet.data := by
  rcases FromCharSet_cases R seed length charSet with
    ⟨_, hF⟩ | ⟨_, _, hF⟩ | ⟨_, _, _, hF⟩ | ⟨_, _, _, _, hF⟩ | ⟨_, _, _, _, cs, _, hmem, hF⟩
  · exact ⟨_, hF, fun c hc => by cases hc⟩
  · exact ⟨_, hF, fun c hc => by cases hc⟩
  · exact ⟨_, hF, fun c hc => by cases hc⟩
  · exact ⟨_, hF, fun c hc => by cases hc⟩
  · exact ⟨_, hF, hmem⟩

/-- C3: `FromCharSet` returns a non-nil error if and only if length < 0, or
charSet is empty, or a character occurs more than once in charSet, or charSet
has fewer than two characters; for every other input the error is nil. -/
theorem FromCharSet_error_iff (R : Rand) (seed length : Int) (charSet : String) :
    ∃ r, FromCharSet R seed length charSet = some r ∧
      (r.err ≠ none ↔
        (length < 0 ∨ charSet = "" ∨ ¬ charSet.data.Nodup ∨ charSet.length < 2)) := by
  rcases FromCharSet_cases R seed length charSet with
    ⟨h, hF⟩ | ⟨_, h, hF⟩ | ⟨_, _, h, hF⟩ | ⟨_, _, _, h, hF⟩ | ⟨h0, h1, h2, h3, cs, _, _, hF⟩
  · exact ⟨_, hF, by simp [h]⟩
  · exact ⟨_, hF, by simp [h]⟩
  · exact ⟨_, hF, by simp [h]⟩
  · exact ⟨_, hF, by simp [h]⟩
  · refine ⟨_, hF, ?_⟩
    constructor
    · intro hne
      exact absurd rfl hne
    · rintro (h | h | h | h)
      · omega
      · exact absurd h h1
      · exact absurd h2 h
      · omega

/-- C4: `FromCharSet` checks (1) length < 0, (2) charSet empty, (3) a
repeated character, (4) fewer than two characters, in this order, and returns
the error of the first check that fails, with the messages "length is
negative.", "charSet is an empty string.", "duplicate characters in
charSet.", "charSet is less than two characters."; a negative length wins
over an empty or duplicate-containing charSet. -/
theorem FromCharSet_first_failing_check (R : Rand) (seed length : Int) (charSet : String) :
    ∃ r, FromCharSet R seed length charSet = some r ∧
      r.err =
        (if length < 0 then some "length is negative."
        else if charSet = "" then some "charSet is an empty string."
        else if ¬ charSet.data.Nodup then some "duplicate characters in charSet."
        else if charSet.length < 2 then some "charSet is less than two characters."
        else none) := by
  rcases FromCharSet_cases R seed length charSet with
    ⟨h, hF⟩ | ⟨h0, h, hF⟩ | ⟨h0, h1, h, hF⟩ | ⟨h0, h1, h2, h, hF⟩ |
    ⟨h0, h1, h2, h3, cs, _, _, hF⟩
  · exact ⟨_, hF, by simp [h]⟩
  · have hn : ¬ length < 0 := by omega
    exact ⟨_, hF, by simp [hn, h]⟩
  · have hn : ¬ length < 0 := by omega
    exact ⟨_, hF, by simp [hn, h1, h]⟩
  · have hn : ¬ length < 0 := by omega
    exact ⟨_, hF, by simp [hn, h1, h2, h]⟩
  · have hn : ¬ length < 0 := by omega
    have h3n : ¬ charSet.length < 2 := by omega
    exact ⟨_, hF, by simp [hn, h1, h2, h3n]⟩

/-- C5, as stated, fails: on the charSet "aa" (one distinct character, two
occurrences) `FromCharSet` reports the duplicate, not the size. -/
theorem FromCharSet_one_distinct_character_counterexample :
    (0 : Int) ≤ 3 ∧ "aa" ≠ "" ∧ (∀ c ∈ "aa".data, c = 'a') ∧
    FromCharSet lcg 41 3 "aa" = some ⟨"", some "duplicate characters in charSet.", 41⟩ ∧
    FromCharSet lcg 41 3 "aa"
      ≠ some ⟨"", some "charSet is less than two characters.", 41⟩ := by
  decide

/-- C5, amended: for every length >= 0 and every non-empty charSet with exactly
one distinct character, `FromCharSet` returns an error and the empty string:
"charSet is less than two characters." when charSet is that one character,
"duplicate characters in charSet." when the character occurs two or more
times. -/
theorem FromCharSet_one_distinct_character (R : Rand) (seed length : Int) (charSet : String)
    (a : Char) (hlen : 0 ≤ length) (hne : charSet ≠ "") (hone : ∀ c ∈ charSet.data, c = a) :
    ∃ r, FromCharSet R seed length charSet = some r ∧ r.s = "" ∧
      (charSet.length = 1 → r.err = some "charSet is less than two characters.") ∧
      (2 ≤ charSet.length → r.err = some "duplicate characters in charSet.") := by
  have hrep : charSet.data = List.replicate charSet.data.length a :=
    List.eq_replicate_iff.mpr ⟨rfl, hone⟩
  by_cases h1 : charSet.length = 1
  · have hl : charSet.data.length = 1 := h1
    have hd : charSet.data.Nodup := by
      rw [hrep, hl]
      simp
    refine ⟨_, FromCharSet_small R seed length charSet hlen hne hd (by omega), rfl, ?_, ?_⟩
    · intro _
      rfl
    · intro h2
      omega
  · have h0 : charSet.length ≠ 0 := fun h => hne ((eq_empty_iff_length charSet).mpr h)
    have hl : 2 ≤ charSet.data.length := by
      show 2 ≤ charSet.length
      omega
    have hd : ¬ charSet.data.Nodup := by
      rw [hrep]
      intro hnd
      have := List.nodup_replicate.mp hnd
      omega
    refine ⟨_, FromCharSet_dup R seed length charSet hlen hne hd, rfl, ?_, ?_⟩
    · intro h
      exact absurd h h1
    · intro _
      rfl

theorem FromCharSet_one_distinct_character_witness :
    (0 : Int) ≤ 24646 ∧ "a" ≠ "" ∧ (∀ c ∈ "a".data, c = 'a') ∧
    ∃ r, FromCharSet lcg 41 24646 "a" = some r ∧ r.s = "" ∧
      ("a".length = 1 → r.err = some "charSet is less than two characters.") ∧
      (2 ≤ "a".length → r.err = some "duplicate characters in charSet.") :=
  ⟨by decide, by decide, by decide,
    FromCharSet_one_distinct_character lcg 41 24646 "a" 'a' (by decide) (by decide)
      (by decide)⟩

/-- C6: whenever `FromCharSet`, `Alpha`, `AlphaNum`, `Num` or `Base64` returns
a non-nil error, the string returned with it is empty; for every length < 0
and every charSet `FromCharSet` returns an error and the empty string. -/
theorem error_comes_with_empty_string (R : Rand) (seed length : Int) (charSet : String) :
    (∃ r, FromCharSet R seed length charSet = some r ∧ (r.err ≠ none → r.s = "") ∧
      (length < 0 → r.err ≠ none ∧ r.s = "")) ∧
    (∃ r, Alpha R seed length = some r ∧ (r.err ≠ none → r.s = "")) ∧
    (∃ r, AlphaNum R seed length = some r ∧ (r.err ≠ none → r.s = "")) ∧
    (∃ r, Num R seed length = some r ∧ (r.err ≠ none → r.s = "")) ∧
    (∃ r, Base64 R seed length = some r ∧ (r.err ≠ none → r.s = "")) := by
  refine ⟨FromCharSet_err_empty R seed length charSet, ?_, ?_, ?_, ?_⟩
  · obtain ⟨r, h, he, _⟩ := FromCharSet_err_empty R seed length setAlpha
    exact ⟨r, h, he⟩
  · obtain ⟨r, h, he, _⟩ := FromCharSet_err_empty R seed length setAlphaNum
    exact ⟨r, h, he⟩
  · obtain ⟨r, h, he, _⟩ := FromCharSet_err_empty R seed length setNum
    exact ⟨r, h, he⟩
  · obtain ⟨r, h, he, _⟩ := FromCharSet_err_empty R seed length setBase64
    exact ⟨r, h, he⟩

theorem error_comes_with_empty_string_witness :
    (∃ r, FromCharSet lcg 41 (-1) "abcdef-=_" = some r ∧ (r.err ≠ none → r.s = "") ∧
      ((-1 : Int) < 0 → r.err ≠ none ∧ r.s = "")) ∧
    (∃ r, Alpha lcg 41 (-1) = some r ∧ (r.err ≠ none → r.s = "")) ∧
    (∃ r, AlphaNum lcg 41 (-1) = some r ∧ (r.err ≠ none → r.s = "")) ∧
    (∃ r, Num lcg 41 (-1) = some r ∧ (r.err ≠ none → r.s = "")) ∧
    (∃ r, Base64 lcg 41 (-1) = some r ∧ (r.err ≠ none → r.s = "")) :=
  error_comes_with_empty_string lcg 41 (-1) "abcdef-=_"

/-- C7: for every n >= 0, `Alpha(n)`, `AlphaNum(n)`, `Num(n)` and `Base64(n)`
return a nil error and a string of exactly n characters, all of them in
A-Za-z, A-Za-z0-9, 0-9 and A-Za-z0-9_- respectively; for every n < 0 each of
them returns an error: each wrapper returns an error if and only if n is
negative. -/
theorem wrappers_length_and_alphabet (R : Rand) (seed n : Int) :
    (∃ r, Alpha R seed n = some r ∧ (r.err ≠ none ↔ n < 0) ∧
      (0 ≤ n → r.err = none ∧ (r.s.length : Int) = n ∧ ∀ c ∈ r.s.data, alphaChar c)) ∧
    (∃ r, AlphaNum R seed n = some r ∧ (r.err ≠ none ↔ n < 0) ∧
      (0 ≤ n → r.err = none ∧ (r.s.length : Int) = n ∧ ∀ c ∈ r.s.data, alphaNumChar c)) ∧
    (∃ r, Num R seed n = some r ∧ (r.err ≠ none ↔ n < 0) ∧
      (0 ≤ n → r.err = none ∧ (r.s.length : Int) = n ∧ ∀ c ∈ r.s.data, digitChar c)) ∧
    (∃ r, Base64 R seed n = some r ∧ (r.err ≠ none ↔ n < 0) ∧
      (0 ≤ n → r.err = none ∧ (r.s.length : Int) = n ∧ ∀ c ∈ r.s.data, urlChar c)) :=
  ⟨FromCharSet_builtin R seed n setAlpha alphaChar (by decide) (by decide) (by decide),
    FromCharSet_builtin R seed n setAlphaNum alphaNumChar (by decide) (by decide) (by decide),
    FromCharSet_builtin R seed n setNum digitChar (by decide) (by decide) (by decide),
    FromCharSet_builtin R seed n setBase64 urlChar (by decide) (by decide) (by decide)⟩

theorem wrappers_length_and_alphabet_witness :
    (∃ r, Alpha lcg 41 32 = some r ∧ (r.err ≠ none ↔ (32 : Int) < 0) ∧
      ((0 : Int) ≤ 32 → r.err = none ∧ (r.s.length : Int) = 32 ∧
        ∀ c ∈ r.s.data, alphaChar c)) ∧
    (∃ r, AlphaNum lcg 41 32 = some r ∧ (r.err ≠ none ↔ (32 : Int) < 0) ∧
      ((0 : Int) ≤ 32 → r.err = none ∧ (r.s.length : Int) = 32 ∧
        ∀ c ∈ r.s.data, alphaNumChar c)) ∧
    (∃ r, Num lcg 41 32 = some r ∧ (r.err ≠ none ↔ (32 : Int) < 0) ∧
      ((0 : Int) ≤ 32 → r.err = none ∧ (r.s.length : Int) = 32 ∧
        ∀ c ∈ r.s.data, digitChar c)) ∧
    (∃ r, Base64 lcg 41 32 = some r ∧ (r.err ≠ none ↔ (32 : Int) < 0) ∧
      ((0 : Int) ≤ 32 → r.err = none ∧ (r.s.length : Int) = 32 ∧
        ∀ c ∈ r.s.data, urlChar c)) :=
  wrappers_length_and_alphabet lcg 41 32

/-! ## Properties of the secure tokens -/

/-- C8: for every 128-byte buffer the entropy source delivers, `Crypto128`
returns the encoding of the buffer, a string of exactly 172 characters, and
for every 256-byte buffer `Crypto256` returns a string of exactly 344
characters: the padded base64 encoding of n bytes has length
4 * ceil(n / 3). -/
theorem Crypto_token_length (src : EntropySource) :
    (∀ res, src.Read (List.replicate 128 0) = ReadOutcome.returns res → res.err = none →
      Crypto128 src = Outcome.returns (EncodeToString res.bb, none) ∧
      res.bb.length = 128 ∧
      (EncodeToString res.bb).length = 172) ∧
    (∀ res, src.Read (List.replicate 256 0) = ReadOutcome.returns res → res.err = none →
      Crypto256 src = Outcome.returns (EncodeToString res.bb, none) ∧
      res.bb.length = 256 ∧
      (EncodeToString res.bb).length = 344) ∧
    (∀ bb : List byte, (EncodeToString bb).length = 4 * ⌈(bb.length : ℚ) / 3⌉₊) := by
  refine ⟨?_, ?_, ?_⟩
  · intro res hread hok
    obtain ⟨hl, hgen⟩ := cryptoGen_ok src 128 (by decide) res hread hok
    have hl128 : res.bb.length = 128 := hl
    refine ⟨hgen, hl128, ?_⟩
    show (Encode _).length = 172
    rw [Encode_length, hl128]
  · intro res hread hok
    obtain ⟨hl, hgen⟩ := cryptoGen_ok src 256 (by decide) res hread hok
    have hl256 : res.bb.length = 256 := hl
    refine ⟨hgen, hl256, ?_⟩
    show (Encode _).length = 344
    rw [Encode_length, hl256]
  · intro bb
    show (Encode bb).length = _
    rw [Encode_length, ceil_third]
    omega

set_option maxRecDepth 8000 in
theorem Crypto_token_length_witness :
    countingSource.Read (List.replicate 128 0) = ReadOutcome.returns (countingResult 128) ∧
    (countingResult 128).err = none ∧
    countingSource.Read (List.replicate 256 0) = ReadOutcome.returns (countingResult 256) ∧
    (countingResult 256).err = none ∧
    (Crypto128 countingSource
      = Outcome.returns (EncodeToString (countingResult 128).bb, none) ∧
      (countingResult 128).bb.length = 128 ∧
      (EncodeToString (countingResult 128).bb).length = 172) ∧
    (Crypto256 countingSource
      = Outcome.returns (EncodeToString (countingResult 256).bb, none) ∧
      (countingResult 256).bb.length = 256 ∧
      (EncodeToString (countingResult 256).bb).length = 344) :=
  ⟨rfl, rfl, rfl, rfl, (Crypto_token_length countingSource).1 (countingResult 128) rfl rfl,
    (Crypto_token_length countingSource).2.1 (countingResult 256) rfl rfl⟩

/-- C9: for every buffer the entropy source delivers, the token of
`Crypto128` is 171 characters of A-Z, a-z, 0-9, '-', '_' followed by exactly
one '=', and the token of `Crypto256` is 342 such characters followed by
exactly two '=': every character matches [A-Za-z0-9_=-], none is '+' or '/',
and '=' occurs only as the trailing padding, which is retained. -/
theorem Crypto_token_alphabet (src : EntropySource) :
    (∀ res, src.Read (List.replicate 128 0) = ReadOutcome.returns res → res.err = none →
      ∃ body : List Char,
        Crypto128 src = Outcome.returns (String.mk (body ++ ['=']), none) ∧
        body.length = 171 ∧
        (∀ c ∈ body, urlChar c ∧ c ≠ '=' ∧ c ≠ '+' ∧ c ≠ '/') ∧
        (∀ c ∈ body ++ ['='], tokenChar c ∧ c ≠ '+' ∧ c ≠ '/')) ∧
    (∀ res, src.Read (List.replicate 256 0) = ReadOutcome.returns res → res.err = none →
      ∃ body : List Char,
        Crypto256 src = Outcome.returns (String.mk (body ++ ['=', '=']), none) ∧
        body.length = 342 ∧
        (∀ c ∈ body, urlChar c ∧ c ≠ '=' ∧ c ≠ '+' ∧ c ≠ '/') ∧
        (∀ c ∈ body ++ ['=', '='], tokenChar c ∧ c ≠ '+' ∧ c ≠ '/')) := by
  constructor
  · intro res hread hok
    obtain ⟨body, hgen, hlen, hb⟩ := cryptoGen_token src 128 (by decide) res hread hok
    refine ⟨body, hgen, ?_, fun c hc => ⟨hb c hc, urlChar_not_special c (hb c hc)⟩, ?_⟩
    · have h : body.length + 1 = 172 := hlen
      omega
    · intro c hc
      rcases List.mem_append.mp hc with hc | hc
      · exact ⟨Or.inl (hb c hc), (urlChar_not_special c (hb c hc)).2⟩
      · have hceq : c = '=' := by simpa using hc
        subst hceq
        decide
  · intro res hread hok
    obtain ⟨body, hgen, hlen, hb⟩ := cryptoGen_token src 256 (by decide) res hread hok
    refine ⟨body, hgen, ?_, fun c hc => ⟨hb c hc, urlChar_not_special c (hb c hc)⟩, ?_⟩
    · have h : body.length + 2 = 344 := hlen
      omega
    · intro c hc
      rcases List.mem_append.mp hc with hc | hc
      · exact ⟨Or.inl (hb c hc), (urlChar_not_special c (hb c hc)).2⟩
      · have hceq : c = '=' := by simpa using hc
        subst hceq
        decide

set_option maxRecDepth 8000 in
theorem Crypto_token_alphabet_witness :
    countingSource.Read (List.replicate 128 0) = ReadOutcome.returns (countingResult 128) ∧
    (countingResult 128).err = none ∧
    countingSource.Read (List.replicate 256 0) = ReadOutcome.returns (countingResult 256) ∧
    (countingResult 256).err = none ∧
    (∃ body : List Char,
        Crypto128 countingSource = Outcome.returns (String.mk (body ++ ['=']), none) ∧
        body.length = 171 ∧
        (∀ c ∈ body, urlChar c ∧ c ≠ '=' ∧ c ≠ '+' ∧ c ≠ '/') ∧
        (∀ c ∈ body ++ ['='], tokenChar c ∧ c ≠ '+' ∧ c ≠ '/')) ∧
    (∃ body : List Char,
        Crypto256 countingSource = Outcome.returns (String.mk (body ++ ['=', '=']), none) ∧
        body.length = 342 ∧
        (∀ c ∈ body, urlChar c ∧ c ≠ '=' ∧ c ≠ '+' ∧ c ≠ '/') ∧
        (∀ c ∈ body ++ ['=', '='], tokenChar c ∧ c ≠ '+' ∧ c ≠ '/')) :=
  ⟨rfl, rfl, rfl, rfl, (Crypto_token_alphabet countingSource).1 (countingResult 128) rfl rfl,
    (Crypto_token_alphabet countingSource).2 (countingResult 256) rfl rfl⟩

set_option maxRecDepth 8000 in
/-- C10: a reader that cannot supply the bytes, under a `crypto/rand.Read`
that aborts the process instead of returning an error (Go 1.24 and later):
`cryptoGen`, `Crypto128` and `Crypto256` do not return, so no error and no
empty string reach the caller, against the comment "Returns an error if it
could not read all 128 bytes."  Under a `Read` that returns the error (Go
1.23 and before) the same reader gives the error and the empty string. -/
theorem cryptoGen_failing_reader_aborts :
    abortingSource.Read (List.replicate 128 0) = ReadOutcome.aborts ∧
    cryptoGen abortingSource 128 = Outcome.aborts ∧
    Crypto128 abortingSource = Outcome.aborts ∧
    Crypto256 abortingSource = Outcome.aborts ∧
    (∀ e : error, Crypto128 abortingSource ≠ Outcome.returns ("", e)) ∧
    Crypto128 failingSource = Outcome.returns ("", some "unexpected EOF") := by
  have h128 : Crypto128 abortingSource = Outcome.aborts :=
    cryptoGen_aborts abortingSource 128 (by decide) rfl
  have h256 : Crypto256 abortingSource = Outcome.aborts :=
    cryptoGen_aborts abortingSource 256 (by decide) rfl
  refine ⟨rfl, h128, h128, h256, ?_, ?_⟩
  · intro e he
    rw [h128] at he
    cases he
  · exact cryptoGen_fail failingSource 128 (by decide) _ rfl (by decide)

/-! ## The seed counter -/

theorem wrapInt64_add (x y : Int) : wrapInt64 (wrapInt64 x + y) = wrapInt64 (x + y) := by
  unfold wrapInt64
  omega

theorem wrapInt64_succ (x : Int) (h1 : -2 ^ 63 ≤ x) (h2 : x < 2 ^ 63 - 1) :
    wrapInt64 (x + 1) = x + 1 := by
  unfold wrapInt64
  omega

theorem wrapInt64_max : wrapInt64 ((2 ^ 63 - 1) + 1) = -2 ^ 63 := by
  decide

theorem wrapInt64_inj (s : Int) (i j : Nat) (hi : i < 2 ^ 64) (hj : j < 2 ^ 64)
    (h : wrapInt64 (s + i) = wrapInt64 (s + j)) : i = j := by
  unfold wrapInt64 at h
  omega

/-- The outcome of `FromCharSet` and the seed: the error is nil exactly on
the valid arguments, a nil error comes with the incremented seed and an error
with the seed as it was. -/
theorem FromCharSet_seed (R : Rand) (seed length : Int) (charSet : String) :
    ∃ r, FromCharSet R seed length charSet = some r ∧
      (r.err = none ↔ (0 ≤ length ∧ 2 ≤ charSet.length ∧ charSet.data.Nodup)) ∧
      (r.err = none → r.seed = wrapInt64 (seed + 1)) ∧
      (r.err ≠ none → r.seed = seed) := by
  rcases FromCharSet_cases R seed length charSet with
    ⟨h, hF⟩ | ⟨_, h, hF⟩ | ⟨_, _, h, hF⟩ | ⟨_, _, _, h, hF⟩ | ⟨h0, _, h2, h3, cs, _, _, hF⟩
  · refine ⟨_, hF, ?_, (fun he => by cases he), fun _ => rfl⟩
    constructor
    · intro he
      cases he
    · rintro ⟨h0, _, _⟩
      omega
  · refine ⟨_, hF, ?_, (fun he => by cases he), fun _ => rfl⟩
    constructor
    · intro he
      cases he
    · rintro ⟨_, h2, _⟩
      subst h
      exact absurd h2 (by decide)
  · refine ⟨_, hF, ?_, (fun he => by cases he), fun _ => rfl⟩
    constructor
    · intro he
      cases he
    · rintro ⟨_, _, hd⟩
      exact absurd hd h
  · refine ⟨_, hF, ?_, (fun he => by cases he), fun _ => rfl⟩
    constructor
    · intro he
      cases he
    · rintro ⟨_, h2, _⟩
      omega
  · exact ⟨_, hF, ⟨fun _ => ⟨h0, h3, h2⟩, fun _ => rfl⟩, fun _ => rfl,
      fun hne => absurd rfl hne⟩

/-- C11, as stated, fails: a call with a negative length returns before
`seed++` and leaves the counter at 41. -/
theorem FromCharSet_seed_every_call_counterexample :
    FromCharSet lcg 41 (-1) "ab" = some ⟨"", some "length is negative.", 41⟩ ∧
    (41 : Int) ≠ wrapInt64 (41 + 1) := by
  decide

/-- C11, amended: every call of `FromCharSet` whose arguments pass validation
(length >= 0, charSet of at least two characters, all distinct), whatever its
length, increments the seed counter once, by exactly 1 as a 64 bit signed
integer (2^63 - 1 wraps to -2^63); a call whose arguments fail validation
returns an error and leaves the counter as it was. -/
theorem FromCharSet_seed_by_arguments (R : Rand) (seed length : Int) (charSet : String) :
    ∃ r, FromCharSet R seed length charSet = some r ∧
      ((0 ≤ length ∧ 2 ≤ charSet.length ∧ charSet.data.Nodup) →
        r.err = none ∧ r.seed = wrapInt64 (seed + 1) ∧
        (-2 ^ 63 ≤ seed → seed < 2 ^ 63 - 1 → r.seed = seed + 1) ∧
        (seed = 2 ^ 63 - 1 → r.seed = -2 ^ 63)) ∧
      (¬ (0 ≤ length ∧ 2 ≤ charSet.length ∧ charSet.data.Nodup) →
        r.err ≠ none ∧ r.seed = seed) := by
  obtain ⟨r, hF, hiff, hok, herr⟩ := FromCharSet_seed R seed length charSet
  refine ⟨r, hF, ?_, ?_⟩
  · intro hv
    have he := hiff.mpr hv
    have hs := hok he
    refine ⟨he, hs, ?_, ?_⟩
    · intro h1 h2
      rw [hs]
      exact wrapInt64_succ seed h1 h2
    · intro hmax
      rw [hs, hmax]
      exact wrapInt64_max
  · intro hv
    have he : r.err ≠ none := fun h => hv (hiff.mp h)
    exact ⟨he, herr he⟩

theorem FromCharSet_seed_by_arguments_witness :
    ∃ r, FromCharSet lcg (2 ^ 63 - 1) 0 "ab" = some r ∧
      (((0 : Int) ≤ 0 ∧ 2 ≤ "ab".length ∧ "ab".data.Nodup) →
        r.err = none ∧ r.seed = wrapInt64 ((2 ^ 63 - 1) + 1) ∧
        (-2 ^ 63 ≤ (2 ^ 63 - 1 : Int) → (2 ^ 63 - 1 : Int) < 2 ^ 63 - 1 →
          r.seed = (2 ^ 63 - 1) + 1) ∧
        ((2 ^ 63 - 1 : Int) = 2 ^ 63 - 1 → r.seed = -2 ^ 63)) ∧
      (¬ ((0 : Int) ≤ 0 ∧ 2 ≤ "ab".length ∧ "ab".data.Nodup) →
        r.err ≠ none ∧ r.seed = 2 ^ 63 - 1) :=
  FromCharSet_seed_by_arguments lcg (2 ^ 63 - 1) 0 "ab"

/-- The seeds of the streams of a sequence of calls: the call number `k + 1`
among those that generate a string builds its stream from the initial seed
plus `k + 1`, wrapped to 64 bits. -/
theorem streamSeeds_eq (R : Rand) (args : List (Int × String)) (seed : Int) :
    ∃ m, m ≤ args.length ∧
      streamSeeds R seed args
        = (List.range m).map (fun k => wrapInt64 (seed + ((k + 1 : Nat) : Int))) := by
  induction args generalizing seed with
  | nil => exact ⟨0, Nat.le_refl _, rfl⟩
  | cons a rest ih =>
    obtain ⟨length, charSet⟩ := a
    obtain ⟨r, hF, _, hok, herr⟩ := FromCharSet_seed R seed length charSet
    by_cases he : r.err = none
    · obtain ⟨m, hm, hrest⟩ := ih (wrapInt64 (seed + 1))
      refine ⟨m + 1, by simpa using hm, ?_⟩
      unfold streamSeeds
      simp only [hF, he, if_true, hok he, hrest]
      rw [List.range_succ_eq_map, List.map_cons, List.map_map]
      congr 1
      apply List.map_congr_left
      intro k _
      simp only [Function.comp]
      rw [wrapInt64_add]
      congr 1
      push_cast
      ring
    · obtain ⟨m, hm, hrest⟩ := ih seed
      refine ⟨m, by simp only [List.length_cons]; omega, ?_⟩
      unfold streamSeeds
      simp only [hF, he, if_false, herr he, hrest]

/-- C12, as stated, fails: started at 2^63 - 2, the second of two generating
calls takes the seed -2^63, which is below the seed 2^63 - 1 of the first. -/
theorem streamSeeds_increasing_counterexample :
    streamSeeds lcg (2 ^ 63 - 2) [(1, "ab"), (2, "abc")] = [2 ^ 63 - 1, -2 ^ 63] ∧
    ¬ List.Chain' (fun a b => a < b) (streamSeeds lcg (2 ^ 63 - 2) [(1, "ab"), (2, "abc")]) := by
  have h : streamSeeds lcg (2 ^ 63 - 2) [(1, "ab"), (2, "abc")] = [2 ^ 63 - 1, -2 ^ 63] := by
    decide
  refine ⟨h, ?_⟩
  rw [h, List.chain'_cons]
  intro hlt
  exact absurd hlt.1 (by decide)

/-- C12, amended: in every sequence of fewer than 2^64 calls of `FromCharSet`
made one after the other, from any initial seed, the seeds from which the
generating calls build their streams are pairwise distinct; they are strictly
increasing as long as the counter does not pass 2^63 - 1 (initial seed plus
number of calls at most 2^63 - 1). -/
theorem streamSeeds_distinct (R : Rand) (seed : Int) (args : List (Int × String))
    (hn : args.length < 2 ^ 64) :
    (streamSeeds R seed args).Nodup ∧
    (-2 ^ 63 ≤ seed → seed + (args.length : Int) ≤ 2 ^ 63 - 1 →
      (streamSeeds R seed args).Pairwise (fun a b => a < b)) := by
  obtain ⟨m, hm, heq⟩ := streamSeeds_eq R args seed
  rw [heq]
  constructor
  · apply List.Nodup.map_on _ (List.nodup_range m)
    intro i hi j hj hij
    have hi1 := List.mem_range.mp hi
    have hj1 := List.mem_range.mp hj
    have := wrapInt64_inj seed (i + 1) (j + 1) (by omega) (by omega) hij
    omega
  · intro h1 h2
    rw [List.pairwise_map]
    apply List.Pairwise.imp_of_mem _ (List.pairwise_lt_range m)
    intro i j hi hj hij
    have hi1 := List.mem_range.mp hi
    have hj1 := List.mem_range.mp hj
    unfold wrapInt64
    push_cast
    omega

theorem streamSeeds_distinct_witness :
    [((1 : Int), "ab"), (-1, "ab"), (0, "ab"), (3, "aa"), (2, "abc")].length < 2 ^ 64 ∧
    (streamSeeds lcg (2 ^ 63 - 2) [(1, "ab"), (-1, "ab"), (0, "ab"), (3, "aa"), (2, "abc")]).Nodup ∧
    (-2 ^ 63 ≤ (2 ^ 63 - 2 : Int) →
      (2 ^ 63 - 2 : Int)
          + ([((1 : Int), "ab"), (-1, "ab"), (0, "ab"), (3, "aa"), (2, "abc")].length : Int)
        ≤ 2 ^ 63 - 1 →
      (streamSeeds lcg (2 ^ 63 - 2)
        [(1, "ab"), (-1, "ab"), (0, "ab"), (3, "aa"), (2, "abc")]).Pairwise
          (fun a b => a < b)) :=
  ⟨by decide, streamSeeds_distinct lcg (2 ^ 63 - 2)
    [(1, "ab"), (-1, "ab"), (0, "ab"), (3, "aa"), (2, "abc")] (by decide)⟩

/-! ## Concurrent calls, panics, glyphs and the built-in charsets -/

/-- C13: two concurrent calls started with the seed at 41.  Each executes
Lock, `seed++`, Unlock, one after the other, and only then each reads `seed`
for `rand.NewSource(seed)`, outside the critical section: both calls build
their stream from the seed 43, and no call uses 42. -/
theorem concurrent_calls_same_stream_seed :
    runSchedule [0, 0, 0, 1, 1, 1, 0, 1]
        (⟨41, false⟩, [⟨Pc.atLock, none⟩, ⟨Pc.atLock, none⟩])
      = some (⟨43, false⟩, [⟨Pc.atLoop, some 43⟩, ⟨Pc.atLoop, some 43⟩]) := by
  decide

theorem cryptoGen_no_panic (src : EntropySource) (n : Int) (hn : 0 ≤ n) :
    cryptoGen src n ≠ Outcome.panics ∧
    ∀ res, src.Read (List.replicate n.toNat 0) = ReadOutcome.returns res →
      ∃ p, cryptoGen src n = Outcome.returns p := by
  have hret : ∀ res, src.Read (List.replicate n.toNat 0) = ReadOutcome.returns res →
      ∃ p, cryptoGen src n = Outcome.returns p := by
    intro res hread
    by_cases herr : res.err = none
    · exact ⟨_, (cryptoGen_ok src n hn res hread herr).2⟩
    · exact ⟨_, cryptoGen_fail src n hn res hread herr⟩
  refine ⟨?_, hret⟩
  cases hread : src.Read (List.replicate n.toNat 0) with
  | returns res =>
    obtain ⟨p, hp⟩ := hret res hread
    rw [hp]
    intro h
    cases h
  | aborts =>
    rw [cryptoGen_aborts src n hn hread]
    intro h
    cases h

/-- C14: `FromCharSet` has no panic path: it returns for every length and
charSet; when the sampling loop is reached the split set has at least two
elements; on such a set the bound passed to `Intn` is positive, `Intn`
returns, and the index it returns is within the bounds of the set, so the
loop runs to its end.  `Crypto128` and `Crypto256` allocate a buffer of
non-negative size: they never panic, and they return whenever
`crypto/rand.Read` returns. -/
theorem no_panic_path (R : Rand) (seed length : Int) (charSet : String)
    (src : EntropySource) :
    (∃ r, FromCharSet R seed length charSet = some r ∧
      (r.err = none → 2 ≤ (strings_Split charSet).length)) ∧
    (∀ (set : List String) (r : R.Source), 2 ≤ set.length →
      0 < (set.length : Int) ∧
      ∃ i r1, R.Intn r (set.length : Int) = some (i, r1) ∧ 0 ≤ i ∧ i < (set.length : Int) ∧
        ∃ c, index set i = some c) ∧
    (∀ (set : List String) (k : Nat) (r : R.Source) (s : String), 2 ≤ set.length →
      ∃ s1, FromCharSet.loop R set k r s = some s1) ∧
    ((0 : Int) ≤ 128 ∧ Crypto128 src ≠ Outcome.panics ∧
      ∀ res, src.Read (List.replicate 128 0) = ReadOutcome.returns res →
        ∃ p, Crypto128 src = Outcome.returns p) ∧
    ((0 : Int) ≤ 256 ∧ Crypto256 src ≠ Outcome.panics ∧
      ∀ res, src.Read (List.replicate 256 0) = ReadOutcome.returns res →
        ∃ p, Crypto256 src = Outcome.returns p) := by
  refine ⟨?_, ?_, ?_, ⟨by decide, cryptoGen_no_panic src 128 (by decide)⟩,
    ⟨by decide, cryptoGen_no_panic src 256 (by decide)⟩⟩
  · obtain ⟨r, hF, hiff, _, _⟩ := FromCharSet_seed R seed length charSet
    refine ⟨r, hF, ?_⟩
    intro he
    rw [strings_Split_length]
    exact (hiff.mp he).2.1
  · intro set r h2
    have hpos : 0 < set.length := by omega
    obtain ⟨p, _, hI, hidx⟩ := Intn_index R set hpos r
    have hlt := R.next_lt r set.length hpos
    refine ⟨by omega, _, _, hI, by omega, by omega, p, hidx⟩
  · intro set k r s h2
    obtain ⟨picks, _, _, hloop⟩ := FromCharSet.loop_spec R set (by omega) k r s
    exact ⟨_, hloop⟩

theorem no_panic_path_witness :
    (∃ r, FromCharSet lcg 41 24646 "a" = some r ∧
      (r.err = none → 2 ≤ (strings_Split "a").length)) ∧
    (∀ (set : List String) (r : lcg.Source), 2 ≤ set.length →
      0 < (set.length : Int) ∧
      ∃ i r1, lcg.Intn r (set.length : Int) = some (i, r1) ∧ 0 ≤ i ∧
        i < (set.length : Int) ∧ ∃ c, index set i = some c) ∧
    (∀ (set : List String) (k : Nat) (r : lcg.Source) (s : String), 2 ≤ set.length →
      ∃ s1, FromCharSet.loop lcg set k r s = some s1) ∧
    ((0 : Int) ≤ 128 ∧ Crypto128 failingSource ≠ Outcome.panics ∧
      ∀ res, failingSource.Read (List.replicate 128 0) = ReadOutcome.returns res →
        ∃ p, Crypto128 failingSource = Outcome.returns p) ∧
    ((0 : Int) ≤ 256 ∧ Crypto256 failingSource ≠ Outcome.panics ∧
      ∀ res, failingSource.Read (List.replicate 256 0) = ReadOutcome.returns res →
        ∃ p, Crypto256 failingSource = Outcome.returns p) :=
  no_panic_path lcg 41 24646 "a" failingSource

/-- C15, as stated, fails: the glyph "e" with a combining acute accent is
written as the two code points U+0065 U+0301.  A charSet made of this single
glyph passes the size check as a set of two elements and an output of length
1 holds one part of the glyph without the other; a charSet of two different
accented glyphs is rejected for the accent they share. -/
theorem FromCharSet_combining_sequence_counterexample :
    "e\u0301".data = ['e', '\u0301'] ∧ combining '\u0301' ∧ ¬ combining 'e' ∧
    FromCharSet lcg 41 1 "e\u0301" = some ⟨"e", none, 42⟩ ∧
    FromCharSet lcg 65535 1 "e\u0301" = some ⟨"\u0301", none, 65536⟩ ∧
    FromCharSet lcg 41 1 "e\u0301o\u0301"
      = some ⟨"", some "duplicate characters in charSet.", 41⟩ := by
  decide

/-- C15, amended: the sampling unit of `FromCharSet` is the code point.  The
split set has one element per code point of charSet, combining code points
included; the duplicate check and the size check count code points; every
character of an output is a whole code point of charSet.  A glyph written as
a base code point `b` followed by a combining code point `m` is a set of two
elements, and an output of length 1 from it is `b` alone or `m` alone. -/
theorem FromCharSet_code_point_units (R : Rand) (seed length : Int) (charSet : String) :
    (strings_Split charSet).length = charSet.length ∧
    (∀ p ∈ strings_Split charSet, ∃ c ∈ charSet.data, p = String.singleton c) ∧
    (∃ r, FromCharSet R seed length charSet = some r ∧
      (r.err = some "duplicate characters in charSet." ↔
        (0 ≤ length ∧ charSet ≠ "" ∧ ¬ charSet.data.Nodup)) ∧
      (r.err = some "charSet is less than two characters." ↔
        (0 ≤ length ∧ charSet.length = 1)) ∧
      (∀ c ∈ r.s.data, c ∈ charSet.data)) ∧
    (∀ b m : Char, b ≠ m →
      ∃ r, FromCharSet R seed 1 (String.mk [b, m]) = some r ∧ r.err = none ∧
        (r.s = String.singleton b ∨ r.s = String.singleton m)) := by
  refine ⟨strings_Split_length charSet, fun p hp => (mem_strings_Split charSet p).mp hp,
    ?_, ?_⟩
  · rcases FromCharSet_cases R seed length charSet with
      ⟨h, hF⟩ | ⟨h0, h, hF⟩ | ⟨h0, h1, h, hF⟩ | ⟨h0, h1, h2, h, hF⟩ |
      ⟨h0, h1, h2, h3, cs, _, hmem, hF⟩
    · have hn : ¬ 0 ≤ length := by omega
      refine ⟨_, hF, ?_, ?_, fun c hc => by cases hc⟩
      · simp [hn]
      · simp [hn]
    · subst h
      refine ⟨_, hF, ?_, ?_, fun c hc => by cases hc⟩
      · simp
      · simp
    · have hl : charSet.length ≠ 1 := by
        intro hl
        apply h
        have hl1 : charSet.data.length = 1 := hl
        obtain ⟨a, ha⟩ := List.length_eq_one.mp hl1
        rw [ha]
        exact List.nodup_singleton a
      refine ⟨_, hF, ?_, ?_, fun c hc => by cases hc⟩
      · simp [h0, h1, h]
      · simp [hl]
    · have hz : charSet.length ≠ 0 := fun hz => h1 ((eq_empty_iff_length charSet).mpr hz)
      have hl : charSet.length = 1 := by omega
      refine ⟨_, hF, ?_, ?_, fun c hc => by cases hc⟩
      · simp [h2]
      · simp [h0, hl]
    · have hl : charSet.length ≠ 1 := by omega
      refine ⟨_, hF, ?_, ?_, hmem⟩
      · simp [h2]
      · simp [hl]
  · intro b m hbm
    have hd : (String.mk [b, m]).data.Nodup := by
      show [b, m].Nodup
      simp [hbm]
    obtain ⟨cs, hlen, hmem, hF⟩ := FromCharSet_valid R seed 1 (String.mk [b, m])
      (by decide) hd (Nat.le_refl 2)
    refine ⟨_, hF, rfl, ?_⟩
    have hlen1 : cs.length = 1 := hlen
    obtain ⟨c, hc⟩ := List.length_eq_one.mp hlen1
    subst hc
    have hcm : c ∈ [b, m] := hmem c (List.mem_singleton_self c)
    simp only [List.mem_cons, List.mem_singleton, List.not_mem_nil, or_false] at hcm
    rcases hcm with rfl | rfl
    · exact Or.inl rfl
    · exact Or.inr rfl

theorem FromCharSet_code_point_units_witness :
    'e' ≠ '\u0301' ∧
    ∃ r, FromCharSet lcg 65535 1 (String.mk ['e', '\u0301']) = some r ∧ r.err = none ∧
      (r.s = String.singleton 'e' ∨ r.s = String.singleton '\u0301') :=
  ⟨by decide,
    (FromCharSet_code_point_units lcg 65535 1 "e\u0301").2.2.2 'e' '\u0301' (by decide)⟩

/-- A character between `lo` and `hi` is in the list `l` when every code
point of that range is. -/
theorem mem_of_char_range (lo hi : Char) (l : List Char) (c : Char)
    (hl : ∀ n, lo.toNat ≤ n → n ≤ hi.toNat → Char.ofNat n ∈ l) (h1 : lo ≤ c) (h2 : c ≤ hi) :
    c ∈ l := by
  have h := hl c.toNat h1 h2
  rwa [Char.ofNat_toNat] at h

theorem upper_mem (l : List Char) (hl : ∀ c ∈ "ABCDEFGHIJKLMNOPQRSTUVWXYZ".data, c ∈ l)
    (c : Char) (h1 : 'A' ≤ c) (h2 : c ≤ 'Z') : c ∈ l := by
  apply mem_of_char_range 'A' 'Z' l c _ h1 h2
  intro n hn1 hn2
  apply hl
  have h1n : 65 ≤ n := hn1
  have h2n : n ≤ 90 := hn2
  interval_cases n <;> decide

theorem lower_mem (l : List Char) (hl : ∀ c ∈ "abcdefghijklmnopqrstuvwxyz".data, c ∈ l)
    (c : Char) (h1 : 'a' ≤ c) (h2 : c ≤ 'z') : c ∈ l := by
  apply mem_of_char_range 'a' 'z' l c _ h1 h2
  intro n hn1 hn2
  apply hl
  have h1n : 97 ≤ n := hn1
  have h2n : n ≤ 122 := hn2
  interval_cases n <;> decide

theorem digit_mem (l : List Char) (hl : ∀ c ∈ "0123456789".data, c ∈ l)
    (c : Char) (h1 : '0' ≤ c) (h2 : c ≤ '9') : c ∈ l := by
  apply mem_of_char_range '0' '9' l c _ h1 h2
  intro n hn1 hn2
  apply hl
  have h1n : 48 ≤ n := hn1
  have h2n : n ≤ 57 := hn2
  interval_cases n <;> decide

/-- C16: the four built-in charsets are duplicate-free and have the
documented sizes and contents: `setAlpha` is the 52 upper and lower case
Latin letters, `setAlphaNum` those 52 followed by the 10 digits (62),
`setNum` the 10 digits, `setBase64` the 62 alphanumerics followed by '_' and
'-' (64 symbols, none of them '='); each passes the validation of
`FromCharSet`: it is not empty, `uniqueSet` accepts its split and the split
has at least two elements, so the call returns a nil error. -/
theorem builtin_charsets :
    (setAlpha.length = 52 ∧ setAlpha.data.Nodup ∧ ∀ c, c ∈ setAlpha.data ↔ alphaChar c) ∧
    (setAlphaNum.length = 62 ∧ setAlphaNum.data.Nodup ∧
      (∀ c, c ∈ setAlphaNum.data ↔ alphaNumChar c) ∧
      setAlphaNum.data = setAlpha.data ++ setNum.data) ∧
    (setNum.length = 10 ∧ setNum.data.Nodup ∧ ∀ c, c ∈ setNum.data ↔ digitChar c) ∧
    (setBase64.length = 64 ∧ setBase64.data.Nodup ∧
      (∀ c, c ∈ setBase64.data ↔ urlChar c) ∧
      setBase64.data = setAlphaNum.data ++ ['_', '-'] ∧ '=' ∉ setBase64.data) ∧
    (∀ set ∈ [setAlpha, setAlphaNum, setNum, setBase64],
      set ≠ "" ∧ uniqueSet (strings_Split set) = true ∧ ¬ (strings_Split set).length < 2 ∧
      ∀ (R : Rand) (seed : Int), ∃ r, FromCharSet R seed 0 set = some r ∧ r.err = none) := by
  refine ⟨⟨by decide, by decide, ?_⟩, ⟨by decide, by decide, ?_, by decide⟩,
    ⟨by decide, by decide, ?_⟩, ⟨by decide, by decide, ?_, by decide, by decide⟩, ?_⟩
  · intro c
    constructor
    · revert c
      decide
    · rintro (⟨h1, h2⟩ | ⟨h1, h2⟩)
      · exact upper_mem _ (by decide) c h1 h2
      · exact lower_mem _ (by decide) c h1 h2
  · intro c
    constructor
    · revert c
      decide
    · rintro ((⟨h1, h2⟩ | ⟨h1, h2⟩) | ⟨h1, h2⟩)
      · exact upper_mem _ (by decide) c h1 h2
      · exact lower_mem _ (by decide) c h1 h2
      · exact digit_mem _ (by decide) c h1 h2
  · intro c
    constructor
    · revert c
      decide
    · rintro ⟨h1, h2⟩
      exact digit_mem _ (by decide) c h1 h2
  · intro c
    constructor
    · revert c
      decide
    · rintro (((⟨h1, h2⟩ | ⟨h1, h2⟩) | ⟨h1, h2⟩) | rfl | rfl)
      · exact upper_mem _ (by decide) c h1 h2
      · exact lower_mem _ (by decide) c h1 h2
      · exact digit_mem _ (by decide) c h1 h2
      · decide
      · decide
  · intro set hset
    have hv : set ≠ "" ∧ uniqueSet (strings_Split set) = true ∧
        ¬ (strings_Split set).length < 2 := by
      revert set
      decide
    refine ⟨hv.1, hv.2.1, hv.2.2, ?_⟩
    intro R seed
    have hd : set.data.Nodup := (uniqueSet_Split set).mp hv.2.1
    have h2 : 2 ≤ set.length := by
      have := hv.2.2
      rw [strings_Split_length] at this
      omega
    obtain ⟨cs, _, _, hF⟩ := FromCharSet_valid R seed 0 set (by decide) hd h2
    exact ⟨_, hF, rfl⟩

/-! ## The output as a function of the stream -/

theorem Intn_pos (R : Rand) (r : R.Source) (n : Nat) (hn : 0 < n) :
    R.Intn r (n : Int) = some (((R.next r n).1 : Int), (R.next r n).2) := by
  unfold Rand.Intn
  have h0 : ¬ ((n : Int) ≤ 0) := by omega
  simp only [h0, if_false, Int.toNat_ofNat]

theorem index_Split (charSet : String) (d : Nat) (hd : d < charSet.data.length) :
    index (strings_Split charSet) (d : Int)
      = some (String.singleton (charSet.data.get ⟨d, hd⟩)) := by
  unfold index strings_Split
  have h0 : ¬ ((d : Int) < 0) := by omega
  simp only [h0, if_false, Int.toNat_ofNat, List.getElem?_map, List.getElem?_eq_getElem hd,
    Option.map_some', List.get_eq_getElem]

/-- The sampling loop on the split of charSet appends, for each value `d`
that `Intn` draws, the character of charSet at position `d`. -/
theorem FromCharSet.loop_draws (R : Rand) (charSet : String) (hpos : 0 < charSet.length)
    (k : Nat) (r : R.Source) (s : String) :
    ∃ cs : List Char,
      FromCharSet.loop R (strings_Split charSet) k r s = some (String.mk (s.data ++ cs)) ∧
      cs.map some
        = (draws R (charSet.length : Int) k r).map (fun d => charSet.data[d.toNat]?) ∧
      (draws R (charSet.length : Int) k r).length = k ∧
      ∀ d ∈ draws R (charSet.length : Int) k r, 0 ≤ d ∧ d < (charSet.length : Int) := by
  induction k generalizing r s with
  | zero =>
    refine ⟨[], ?_, rfl, rfl, fun d hd => by cases hd⟩
    unfold FromCharSet.loop
    simp
  | succ k ih =>
    have hlt : (R.next r charSet.length).1 < charSet.data.length :=
      R.next_lt r charSet.length hpos
    have hI := Intn_pos R r charSet.length hpos
    have hidx := index_Split charSet (R.next r charSet.length).1 hlt
    obtain ⟨cs, hloop, hmap, hlen, hrange⟩ := ih (R.next r charSet.length).2
      (s ++ String.singleton (charSet.data.get ⟨(R.next r charSet.length).1, hlt⟩))
    refine ⟨charSet.data.get ⟨(R.next r charSet.length).1, hlt⟩ :: cs, ?_, ?_, ?_, ?_⟩
    · unfold FromCharSet.loop
      rw [strings_Split_length]
      simp only [hI, hidx, hloop]
      congr 1
      apply String.ext
      simp [String.data_append, singleton_data]
    · unfold draws
      simp only [hI, List.map_cons, hmap, Int.toNat_ofNat]
      congr 1
      rw [List.getElem?_eq_getElem hlt]
      rfl
    · unfold draws
      simp only [hI, List.length_cons, hlen]
    · unfold draws
      simp only [hI, List.mem_cons]
      rintro d (rfl | hd)
      · have : (R.next r charSet.length).1 < charSet.length := hlt
        omega
      · exact hrange d hd

theorem foldl_append_eq (picks : List String) (s : String) :
    picks.foldl (fun acc p => acc ++ p) s
      = s ++ String.mk ((picks.map String.data).flatten) := by
  apply String.ext
  rw [foldl_append_data, String.data_append]

/-- A longer run of the sampling loop extends the result of a shorter one. -/
theorem FromCharSet.loop_extends (R : Rand) (set : List String) (hpos : 0 < set.length)
    (k j : Nat) (r : R.Source) (s : String) :
    ∃ s1 t, FromCharSet.loop R set k r s = some s1 ∧
      FromCharSet.loop R set (k + j) r s = some (s1 ++ t) := by
  induction k generalizing r s with
  | zero =>
    obtain ⟨picks, _, _, hloop⟩ := FromCharSet.loop_spec R set hpos j r s
    refine ⟨s, String.mk ((picks.map String.data).flatten), rfl, ?_⟩
    rw [Nat.zero_add, hloop, foldl_append_eq]
  | succ k ih =>
    obtain ⟨p, _, hI, hidx⟩ := Intn_index R set hpos r
    obtain ⟨s1, t, h1, h2⟩ := ih (R.next r set.length).2 (s ++ p)
    refine ⟨s1, t, ?_, ?_⟩
    · unfold FromCharSet.loop
      simp only [hI, hidx, h1]
    · rw [Nat.succ_add]
      unfold FromCharSet.loop
      simp only [hI, hidx, h2]

/-- C17: for every valid input and every seed `seed` held before the call,
`FromCharSet` returns the concatenation, for i = 0 .. length-1, of the
character of charSet at position d_i, where d_i is the i-th value drawn by
`Intn(len(set))` from a fresh stream seeded with `seed + 1` (as a 64 bit
signed integer): exactly `length` draws are made, each in `[0, len(set))`,
always with the same bound and on the same set. -/
theorem FromCharSet_concatenates_draws (R : Rand) (seed length : Int) (charSet : String)
    (hlen : 0 ≤ length) (h2 : 2 ≤ charSet.length) (hd : charSet.data.Nodup) :
    ∃ s, FromCharSet R seed length charSet = some ⟨s, none, wrapInt64 (seed + 1)⟩ ∧
      s.data.map some
        = (draws R (charSet.length : Int) length.toNat
            (R.NewSource (wrapInt64 (seed + 1)))).map (fun d => charSet.data[d.toNat]?) ∧
      ((draws R (charSet.length : Int) length.toNat
        (R.NewSource (wrapInt64 (seed + 1)))).length : Int) = length ∧
      (∀ d ∈ draws R (charSet.length : Int) length.toNat (R.NewSource (wrapInt64 (seed + 1))),
        0 ≤ d ∧ d < (charSet.length : Int)) ∧
      (-2 ^ 63 ≤ seed → seed < 2 ^ 63 - 1 → wrapInt64 (seed + 1) = seed + 1) := by
  have h0 : ¬ length < 0 := by omega
  have hne : charSet ≠ "" := by
    intro he
    rw [he] at h2
    exact absurd h2 (by decide)
  have hu : uniqueSet (strings_Split charSet) = true := (uniqueSet_Split charSet).mpr hd
  have h2n : ¬ charSet.length < 2 := by omega
  obtain ⟨cs, hloop, hmap, hdl, hrange⟩ := FromCharSet.loop_draws R charSet (by omega)
    length.toNat (R.NewSource (wrapInt64 (seed + 1))) ""
  refine ⟨String.mk cs, ?_, hmap, ?_, hrange, wrapInt64_succ seed⟩
  · unfold FromCharSet
    simp only [h0, hne, if_false, hu, Bool.not_true, Bool.false_eq_true, strings_Split_length,
      h2n, hloop]
    rfl
  · rw [hdl]
    exact Int.toNat_of_nonneg hlen

theorem FromCharSet_concatenates_draws_witness :
    (0 : Int) ≤ 8 ∧ 2 ≤ "世界地球風火災水稲妻太陽".length ∧ "世界地球風火災水稲妻太陽".data.Nodup ∧
    ∃ s, FromCharSet lcg 41 8 "世界地球風火災水稲妻太陽" = some ⟨s, none, wrapInt64 (41 + 1)⟩ ∧
      s.data.map some
        = (draws lcg ("世界地球風火災水稲妻太陽".length : Int) (8 : Int).toNat
            (lcg.NewSource (wrapInt64 (41 + 1)))).map
              (fun d => "世界地球風火災水稲妻太陽".data[d.toNat]?) ∧
      ((draws lcg ("世界地球風火災水稲妻太陽".length : Int) (8 : Int).toNat
        (lcg.NewSource (wrapInt64 (41 + 1)))).length : Int) = 8 ∧
      (∀ d ∈ draws lcg ("世界地球風火災水稲妻太陽".length : Int) (8 : Int).toNat
          (lcg.NewSource (wrapInt64 (41 + 1))),
        0 ≤ d ∧ d < ("世界地球風火災水稲妻太陽".length : Int)) ∧
      (-2 ^ 63 ≤ (41 : Int) → (41 : Int) < 2 ^ 63 - 1 → wrapInt64 (41 + 1) = 41 + 1) :=
  ⟨by decide, by decide, by decide,
    FromCharSet_concatenates_draws lcg 41 8 "世界地球風火災水稲妻太陽"
      (by decide) (by decide) (by decide)⟩

/-- C18: when `FromCharSet` returns an error (negative length, empty charSet,
duplicate characters, fewer than two characters) the seed counter is left
unchanged, and when it returns a nil error the counter is one more than
before the call (`seed++` on a 64 bit signed integer), including when length
is 0. -/
theorem FromCharSet_seed_by_outcome (R : Rand) (seed length : Int) (charSet : String) :
    ∃ r, FromCharSet R seed length charSet = some r ∧
      (r.err ≠ none ↔
        (length < 0 ∨ charSet = "" ∨ ¬ charSet.data.Nodup ∨ charSet.length < 2)) ∧
      (r.err ≠ none → r.seed = seed) ∧
      (r.err = none → r.seed = wrapInt64 (seed + 1) ∧
        (-2 ^ 63 ≤ seed → seed < 2 ^ 63 - 1 → r.seed = seed + 1)) ∧
      (length = 0 → 2 ≤ charSet.length → charSet.data.Nodup →
        r.err = none ∧ r.s = "" ∧ r.seed = wrapInt64 (seed + 1)) := by
  obtain ⟨r, hF, hiff, hok, herr⟩ := FromCharSet_seed R seed length charSet
  refine ⟨r, hF, ?_, herr, ?_, ?_⟩
  · rw [ne_eq, hiff]
    constructor
    · intro hv
      by_contra hcon
      push_neg at hcon
      obtain ⟨c1, c2, c3, c4⟩ := hcon
      exact hv ⟨by omega, by omega, c3⟩
    · rintro (h | h | h | h) ⟨v1, v2, v3⟩
      · omega
      · rw [h] at v2
        exact absurd v2 (by decide)
      · exact h v3
      · omega
  · intro he
    refine ⟨hok he, ?_⟩
    intro h1 h2
    rw [hok he]
    exact wrapInt64_succ seed h1 h2
  · intro hl h2 hd
    have he : r.err = none := hiff.mpr ⟨by omega, h2, hd⟩
    refine ⟨he, ?_, hok he⟩
    obtain ⟨cs, hcs, _, hF1⟩ := FromCharSet_valid R seed length charSet (by omega) hd h2
    rw [hF] at hF1
    have hr : r = ⟨String.mk cs, none, wrapInt64 (seed + 1)⟩ := Option.some.inj hF1
    rw [hl] at hcs
    have : cs = [] := List.length_eq_zero.mp hcs
    rw [hr, this]

theorem FromCharSet_seed_by_outcome_witness :
    ∃ r, FromCharSet lcg 41 0 "ab" = some r ∧
      (r.err ≠ none ↔
        ((0 : Int) < 0 ∨ "ab" = "" ∨ ¬ "ab".data.Nodup ∨ "ab".length < 2)) ∧
      (r.err ≠ none → r.seed = 41) ∧
      (r.err = none → r.seed = wrapInt64 (41 + 1) ∧
        (-2 ^ 63 ≤ (41 : Int) → (41 : Int) < 2 ^ 63 - 1 → r.seed = 41 + 1)) ∧
      ((0 : Int) = 0 → 2 ≤ "ab".length → "ab".data.Nodup →
        r.err = none ∧ r.s = "" ∧ r.seed = wrapInt64 (41 + 1)) :=
  FromCharSet_seed_by_outcome lcg 41 0 "ab"

/-- C19: for every valid charSet, every seed and all lengths 0 <= n <= m, the
string `FromCharSet(n, charSet)` returns with the seed counter at `seed`
starts the string `FromCharSet(m, charSet)` returns with the counter at
`seed`: a longer request only extends a shorter one. -/
theorem FromCharSet_longer_extends_shorter (R : Rand) (seed n m : Int) (charSet : String)
    (hn : 0 ≤ n) (hnm : n ≤ m) (h2 : 2 ≤ charSet.length) (hd : charSet.data.Nodup) :
    ∃ s1 t seed1, FromCharSet R seed n charSet = some ⟨s1, none, seed1⟩ ∧
      FromCharSet R seed m charSet = some ⟨s1 ++ t, none, seed1⟩ ∧
      (s1.length : Int) = n ∧ ((s1 ++ t).length : Int) = m := by
  have hne : charSet ≠ "" := by
    intro he
    rw [he] at h2
    exact absurd h2 (by decide)
  have hu : uniqueSet (strings_Split charSet) = true := (uniqueSet_Split charSet).mpr hd
  have h2n : ¬ charSet.length < 2 := by omega
  have hpos : 0 < (strings_Split charSet).length := by
    rw [strings_Split_length]
    omega
  have hm : m.toNat = n.toNat + (m.toNat - n.toNat) := by omega
  obtain ⟨s1, t, hl1, hl2⟩ := FromCharSet.loop_extends R (strings_Split charSet) hpos
    n.toNat (m.toNat - n.toNat) (R.NewSource (wrapInt64 (seed + 1))) ""
  rw [← hm] at hl2
  have hF1 : FromCharSet R seed n charSet = some ⟨s1, none, wrapInt64 (seed + 1)⟩ := by
    unfold FromCharSet
    have h0 : ¬ n < 0 := by omega
    simp only [h0, hne, if_false, hu, Bool.not_true, Bool.false_eq_true,
      strings_Split_length, h2n, hl1]
  have hF2 : FromCharSet R seed m charSet = some ⟨s1 ++ t, none, wrapInt64 (seed + 1)⟩ := by
    unfold FromCharSet
    have h0 : ¬ m < 0 := by omega
    simp only [h0, hne, if_false, hu, Bool.not_true, Bool.false_eq_true,
      strings_Split_length, h2n, hl2]
  refine ⟨s1, t, _, hF1, hF2, ?_, ?_⟩
  · obtain ⟨cs, hcs, _, hV⟩ := FromCharSet_valid R seed n charSet hn hd h2
    rw [hF1] at hV
    have hs : s1 = String.mk cs := congrArg Ret.s (Option.some.inj hV)
    rw [hs]
    show ((cs.length : Nat) : Int) = n
    rw [hcs]
    exact Int.toNat_of_nonneg hn
  · obtain ⟨cs, hcs, _, hV⟩ := FromCharSet_valid R seed m charSet (by omega) hd h2
    rw [hF2] at hV
    have hs : s1 ++ t = String.mk cs := congrArg Ret.s (Option.some.inj hV)
    rw [hs]
    show ((cs.length : Nat) : Int) = m
    rw [hcs]
    exact Int.toNat_of_nonneg (by omega)

theorem FromCharSet_longer_extends_shorter_witness :
    (0 : Int) ≤ 3 ∧ (3 : Int) ≤ 5 ∧ 2 ≤ "abcdef".length ∧ "abcdef".data.Nodup ∧
    ∃ s1 t seed1, FromCharSet lcg 41 3 "abcdef" = some ⟨s1, none, seed1⟩ ∧
      FromCharSet lcg 41 5 "abcdef" = some ⟨s1 ++ t, none, seed1⟩ ∧
      (s1.length : Int) = 3 ∧ ((s1 ++ t).length : Int) = 5 :=
  ⟨by decide, by decide, by decide, by decide,
    FromCharSet_longer_extends_shorter lcg 41 3 5 "abcdef"
      (by decide) (by decide) (by decide) (by decide)⟩

/-- C20: `uniqueSet(ss)` returns true if and only if no string occurs at two
different positions of `ss`, that is `ss` has no duplicates; it returns true
for the empty list and for every one-element list; `FromCharSet` reports
"duplicate characters in charSet." exactly when its call of `uniqueSet` on
the split charSet, reached for a length >= 0 and a charSet that is not
empty, returns false. -/
theorem uniqueSet_iff_no_duplicates (ss : List String) :
    (uniqueSet ss = true ↔
      ∀ i j : Fin ss.length, ss.get i = ss.get j → i = j) ∧
    (uniqueSet ss = true ↔ ss.Nodup) ∧
    uniqueSet [] = true ∧
    (∀ a : String, uniqueSet [a] = true) ∧
    (∀ (R : Rand) (seed length : Int) (charSet : String),
      ∃ r, FromCharSet R seed length charSet = some r ∧
        (r.err = some "duplicate characters in charSet." ↔
          (0 ≤ length ∧ charSet ≠ "" ∧ uniqueSet (strings_Split charSet) = false))) := by
  refine ⟨?_, uniqueSet_eq_true ss, rfl, ?_, ?_⟩
  · rw [uniqueSet_eq_true, List.nodup_iff_injective_get]
    exact ⟨fun h i j hij => h hij, fun h i j hij => h i j hij⟩
  · intro a
    rw [uniqueSet_eq_true]
    exact List.nodup_singleton a
  · intro R seed length charSet
    have hu : uniqueSet (strings_Split charSet) = false ↔ ¬ charSet.data.Nodup := by
      rw [← uniqueSet_Split, Bool.not_eq_true]
    rcases FromCharSet_cases R seed length charSet with
      ⟨h, hF⟩ | ⟨h0, h, hF⟩ | ⟨h0, h1, h, hF⟩ | ⟨h0, h1, h2, h, hF⟩ |
      ⟨h0, h1, h2, h3, cs, _, _, hF⟩
    · have hn : ¬ 0 ≤ length := by omega
      exact ⟨_, hF, by simp [hn]⟩
    · exact ⟨_, hF, by simp [h]⟩
    · exact ⟨_, hF, by simp [h0, h1, hu.mpr h]⟩
    · have hf : ¬ uniqueSet (strings_Split charSet) = false := fun hf => hu.mp hf h2
      exact ⟨_, hF, by simp [hf]⟩
    · have hf : ¬ uniqueSet (strings_Split charSet) = false := fun hf => hu.mp hf h2
      exact ⟨_, hF, by simp [hf]⟩

end gen
